import Mathlib

/-!
Shallow embedding of the Expression-eval dataflow engine.

The development models, in order:
* a universe of JavaScript runtime values (`JSVal`) with the numeric and
  string coercions the node contracts use;
* the string-tagged runtime type system (`getValueType`, `isTypeCompatible`);
* the array-aware math node contracts (Add / Subtract / Multiply / Divide);
* the conditional and routing contracts (If, Switch) and the Reduce contract;
* the graph evaluator: its cooperative scheduler, output flattening and the
  top-level error conversion;
* the validation pipeline with its depth-first-search cycle detection.

Numbers are modelled as rationals: every numeric computation appearing in the
verified claims is exact, and division is the one place the code guards the
denominator.  NaN is modelled as the `none` case of the `Number` coercion.
String primitives (`split`, `trim`) are re-implemented by structural
recursion over character lists so that all definitions evaluate inside the
kernel; they agree with the JavaScript operations on the fragment used.
-/

namespace ExprEval

/-- A JavaScript runtime value as the dataflow engine manipulates them.
`obj` is an opaque marker for plain (non-null, non-array) objects: no node
contract under verification inspects an object's fields.  `undefined` is a
first-class value because `Map.get` on a missing key yields it. -/
inductive JSVal where
  | num (q : Rat)
  | str (s : String)
  | bool (b : Bool)
  | arr (xs : List JSVal)
  | obj
  | null
  | undefined

instance : Inhabited JSVal := ⟨.undefined⟩

/-- The `value === undefined` test used throughout the node contracts. -/
def JSVal.isUndef : JSVal → Bool
  | .undefined => true
  | _ => false

/-- The `Array.isArray(value)` test. -/
def JSVal.isArr : JSVal → Bool
  | .arr _ => true
  | _ => false

/-! ### Character-level string primitives -/

/-- Whitespace for JS `trim` (the whitespace characters occurring here). -/
def isWs (c : Char) : Bool :=
  c = ' ' || c = '\t' || c = '\n' || c = '\r'

/-- JS `String.prototype.trim`, structurally recursive. -/
def jsTrim (s : String) : String :=
  String.mk (((s.toList.dropWhile isWs).reverse.dropWhile isWs).reverse)

/-- Splitter worker: scans left to right, emitting a piece at each
occurrence of the (nonempty) separator.  The fuel is one more than the
length of the text, which a step-counting argument shows is enough since
every step consumes at least one character. -/
def splitOnAux : Nat → List Char → List Char → List Char → List (List Char)
  | 0, _, _, acc => [acc.reverse]
  | fuel + 1, sep, s, acc =>
    match s with
    | [] => [acc.reverse]
    | c :: rest =>
      if sep.isPrefixOf (c :: rest) then
        acc.reverse :: splitOnAux fuel sep ((c :: rest).drop sep.length) []
      else
        splitOnAux fuel sep rest (c :: acc)

/-- JS `String.prototype.split(sep)` for a nonempty literal separator. -/
def jsSplitOn (s sep : String) : List String :=
  if sep = "" then [s]
  else (splitOnAux (s.toList.length + 1) sep.toList s.toList []).map String.mk

/-- `s.includes(sep)` for the union separator: true exactly when splitting
on the separator produces more than one piece. -/
def includesSep (s sep : String) : Bool :=
  (jsSplitOn s sep).length ≠ 1

/-! ### Numeric and string coercions -/

/-- Fractional digits of n/d, at most `fuel` of them (stops at a terminating
expansion).  Used only to render non-integral numbers like JS does. -/
def fracDigits : Nat → Nat → Nat → String
  | _, _, 0 => ""
  | rem, d, fuel + 1 =>
    if rem = 0 then ""
    else
      let r10 := rem * 10
      toString (r10 / d) ++ fracDigits (r10 % d) d fuel

/-- JS number-to-string conversion, restricted to the values arising here:
integers print exactly; non-integral rationals print a (possibly truncated)
decimal expansion.  Doubles always terminate within 20 fractional digits. -/
def ratToString (q : Rat) : String :=
  if q.den = 1 then toString q.num
  else
    (if q < 0 then "-" else "") ++
      toString (q.num.natAbs / q.den) ++ "." ++ fracDigits (q.num.natAbs % q.den) q.den 20

mutual

/-- JS `String(value)` on the modelled value universe. -/
def jsToString : JSVal → String
  | .num q => ratToString q
  | .str s => s
  | .bool b => if b then "true" else "false"
  | .null => "null"
  | .undefined => "undefined"
  | .obj => "[object Object]"
  | .arr xs => String.intercalate "," (jsToStringList xs)

/-- Elements of an array under `Array.prototype.toString`: null and undefined
render as the empty string, every other element recursively. -/
def jsToStringList : List JSVal → List String
  | [] => []
  | .null :: xs => "" :: jsToStringList xs
  | .undefined :: xs => "" :: jsToStringList xs
  | x :: xs => jsToString x :: jsToStringList xs

end

/-- Value of a digit string (the strings reaching it are all-digit). -/
def digitsVal (l : List Char) : Nat :=
  l.foldl (fun acc c => acc * 10 + (c.toNat - 48)) 0

/-- JS `Number(string)` for the decimal grammar `[+-]? digits [. digits]?`
(after trimming; the empty string is 0).  Exotic forms (hex, exponent,
Infinity) are outside the fragment exercised here and coerce to NaN
(`none`). -/
def parseNumber (s : String) : Option Rat :=
  let t := (jsTrim s).toList
  if t = [] then some 0
  else
    let (sign, rest) : Rat × List Char :=
      match t with
      | '-' :: r => (-1, r)
      | '+' :: r => (1, r)
      | r => (1, r)
    match (splitOnAux (rest.length + 1) ['.'] rest []).map String.mk with
    | [intP] =>
      if intP ≠ "" ∧ intP.toList.all Char.isDigit then
        some (sign * ((digitsVal intP.toList : Nat) : Rat))
      else none
    | [intP, fracP] =>
      if (intP ≠ "" ∨ fracP ≠ "") ∧ intP.toList.all Char.isDigit ∧
          fracP.toList.all Char.isDigit then
        some (sign * (((digitsVal intP.toList : Nat) : Rat) +
          ((digitsVal fracP.toList : Nat) : Rat) / ((10 : Rat) ^ fracP.length)))
      else none
    | _ => none

/-- JS `Number(value)`; `none` models NaN. -/
def toNumber : JSVal → Option Rat
  | .num q => some q
  | .bool b => some (if b then 1 else 0)
  | .null => some 0
  | .undefined => none
  | .str s => parseNumber s
  | .arr xs => parseNumber (jsToString (.arr xs))
  | .obj => none

/-- The ubiquitous `Number(v) || 0` coercion of the math contracts:
NaN falls back to 0 (and 0 itself is already 0). -/
def numOr0 (v : JSVal) : Rat :=
  match toNumber v with
  | some q => q
  | none => 0

/-- JS truthiness on the modelled values (NaN is not representable as a
`Rat`; every represented number other than 0 is truthy). -/
def truthy : JSVal → Bool
  | .num q => q ≠ 0
  | .str s => s ≠ ""
  | .bool b => b
  | .null => false
  | .undefined => false
  | .arr _ => true
  | .obj => true

/-! ### Insertion-ordered string-keyed maps

`Map<string, any>` with JS semantics: iteration in insertion order, a
re-`set` of an existing key keeps its position, `get` of a missing key reads
as undefined. -/

abbrev VMap := List (String × JSVal)

/-- `Map.get`, with a missing key reading as `undefined`. -/
def mget (m : VMap) (k : String) : JSVal :=
  match m.find? (fun p => p.1 = k) with
  | some p => p.2
  | none => .undefined

/-- `Map.set`: replace in place if the key exists, else append. -/
def mset : VMap → String → JSVal → VMap
  | [], k, v => [(k, v)]
  | p :: rest, k, v => if p.1 = k then (k, v) :: rest else p :: mset rest k v

/-! ### The runtime type system (types.ts) -/

/-- `getValueType`: the runtime type tag of a value.  Null and undefined both
report `any`; the remaining cases follow the source's check order. -/
def getValueType : JSVal → String
  | .null => "any"
  | .undefined => "any"
  | .arr _ => "array"
  | .obj => "object"
  | .num _ => "number"
  | .str _ => "string"
  | .bool _ => "boolean"

/-- `isTypeCompatible(value, expectedType)`: `any` matches everything; a
union type (pieces joined by the literal separator) matches when the actual
tag equals a (trimmed) member or a member is `any`; otherwise exact tag
equality. -/
def isTypeCompatible (value : JSVal) (expectedType : String) : Bool :=
  if expectedType = "any" then true
  else
    let actualType := getValueType value
    if includesSep expectedType " | " then
      ((jsSplitOn expectedType " | ").map (fun t => jsTrim t)).any
        (fun t => actualType = t || t = "any")
    else
      actualType = expectedType

/-- Modelled from the spec: `areTypesCompatible(sourceType, targetType)` is
declared in the repository's types module but its body is not part of the
snapshot; per the spec it is "the same rule applied to two declared/inferred
tags": `any` on either side matches, a union target matches when the source
tag equals a member or a member is `any`, otherwise exact equality. -/
def areTypesCompatible (sourceType targetType : String) : Bool :=
  if sourceType = "any" ∨ targetType = "any" then true
  else if includesSep targetType " | " then
    ((jsSplitOn targetType " | ").map (fun t => jsTrim t)).any
      (fun t => sourceType = t || t = "any")
  else
    sourceType = targetType

/-! ### Claim C8 -/

/-- C8: `isTypeCompatible` accepts everything for declared type `any`; on a
union type (tags joined by the literal separator) it holds exactly when the
value's runtime tag equals some member or some member is `any`; on any other
declared type it holds exactly when the runtime tag equals the declared
type; and `getValueType` reports `array` for arrays, `object` for non-null
non-array objects, the primitive tag for numbers, strings and booleans, and
`any` for null and undefined. -/
theorem isTypeCompatible_spec :
    (∀ v : JSVal, isTypeCompatible v "any" = true) ∧
    (∀ (v : JSVal) (t : String), includesSep t " | " = true →
      (isTypeCompatible v t = true ↔
        ∃ m ∈ (jsSplitOn t " | ").map (fun p => jsTrim p),
          getValueType v = m ∨ m = "any")) ∧
    (∀ (v : JSVal) (t : String), t ≠ "any" → includesSep t " | " = false →
      (isTypeCompatible v t = true ↔ getValueType v = t)) ∧
    (∀ xs, getValueType (.arr xs) = "array") ∧
    (getValueType .obj = "object") ∧
    (∀ q, getValueType (.num q) = "number") ∧
    (∀ s, getValueType (.str s) = "string") ∧
    (∀ b, getValueType (.bool b) = "boolean") ∧
    (getValueType .null = "any") ∧ (getValueType .undefined = "any") := by
  refine ⟨fun v => by simp [isTypeCompatible], ?_, ?_, fun _ => rfl, rfl,
    fun _ => rfl, fun _ => rfl, fun _ => rfl, rfl, rfl⟩
  · intro v t hsep
    have hany : t ≠ "any" := by
      intro h; subst h; exact absurd hsep (by decide)
    simp only [isTypeCompatible, if_neg hany, hsep, if_pos rfl]
    simp [List.any_eq_true]
  · intro v t hany hsep
    simp [isTypeCompatible, hany, hsep]

/-! ### Graph data model (types.ts) -/

/-- An endpoint reference: a node id and a port name. -/
structure Port where
  node : String
  port : String

/-- A directed edge.  The fields are called `from` and `to` in the TS
source; both are Lean keywords, hence the primes. -/
structure GraphEdge where
  from' : Port
  to' : Port

mutual

/-- The node configuration blob (the `data` record), restricted to the
fields the verified node contracts read: `value` backs Value nodes,
`cases` the Switch case table (JSON object entries in insertion order,
entry values being output port names), and `subgraph` the nested graph of
the higher-order array nodes. -/
inductive NodeData where
  | mk (value : JSVal) (cases : List (String × String)) (subgraph : Option Graph)

/-- A graph node: unique id, type name, configuration. -/
inductive GraphNode where
  | mk (id : String) (type : String) (data : NodeData)

/-- A dataflow graph. -/
inductive Graph where
  | mk (nodes : List GraphNode) (edges : List GraphEdge)

end

def NodeData.value : NodeData → JSVal
  | .mk v _ _ => v

def NodeData.cases : NodeData → List (String × String)
  | .mk _ c _ => c

def NodeData.subgraph : NodeData → Option Graph
  | .mk _ _ s => s

/-- A data blob with no configured fields. -/
def NodeData.empty : NodeData := .mk .undefined [] none

def GraphNode.id : GraphNode → String
  | .mk i _ _ => i

def GraphNode.type : GraphNode → String
  | .mk _ t _ => t

def GraphNode.data : GraphNode → NodeData
  | .mk _ _ d => d

def Graph.nodes : Graph → List GraphNode
  | .mk ns _ => ns

def Graph.edges : Graph → List GraphEdge
  | .mk _ es => es

/-! ### Node execution contracts

A node's `execute(context)` is modelled as a pure function from the node's
per-node value map (from which `getInputValue(p)` reads key `input.p`) and
its configuration to either a thrown error or the ordered list of
`setOutputValue` writes it performs. -/

/-- What a node's `execute` sees: the node's staged value map and its
configuration data. -/
structure ExecInput where
  vals : VMap
  data : NodeData

/-- `context.getInputValue(port)`: reads the staging key `input.port`. -/
def getInput (e : ExecInput) (p : String) : JSVal :=
  mget e.vals ("input." ++ p)

/-- The result of one `execute`: an error (thrown exception) or the ordered
list of output-port writes. -/
abbrev ExecResult := Except String (List (String × JSVal))

/-- Dynamic port name `in i`. -/
def inPort (i : Nat) : String := "in" ++ toString i

/-- The math contracts' input collection loop: read `in0, in1, ...` until
the first undefined.  The staged map is finite and the port names are
pairwise distinct, so the loop always stops within `vals.length + 1`
probes; the fuel makes that bound explicit. -/
def collectInputsAux (e : ExecInput) : Nat → Nat → List JSVal
  | 0, _ => []
  | fuel + 1, i =>
    let value := getInput e (inPort i)
    if value.isUndef then [] else value :: collectInputsAux e fuel (i + 1)

/-- Collect all inputs of a math node. -/
def collectInputs (e : ExecInput) : List JSVal :=
  collectInputsAux e (e.vals.length + 1) 0

/-- `inputs.some(Array.isArray)`. -/
def hasArray (inputs : List JSVal) : Bool :=
  inputs.any JSVal.isArr

/-- Scalar-to-singleton coercion `Array.isArray(input) ? input : [input]`. -/
def toArr : JSVal → List JSVal
  | .arr xs => xs
  | v => [v]

def toArrays (inputs : List JSVal) : List (List JSVal) :=
  inputs.map toArr

/-- `Math.max(...arrays.map(arr => arr.length))` for the nonempty family of
arrays reaching it. -/
def maxLength (arrays : List (List JSVal)) : Nat :=
  (arrays.map List.length).foldl max 0

/-- The alignment read `i < arr.length ? arr[i] : arr[arr.length - 1]`
(reading an empty array's last element is undefined, as in JS). -/
def alignedGet (arr : List JSVal) (i : Nat) : JSVal :=
  if i < arr.length then arr.getD i .undefined else arr.getD (arr.length - 1) .undefined

/-- AddNode.execute after input collection. -/
def addCore (inputs : List JSVal) : JSVal :=
  if hasArray inputs then
    let arrays := toArrays inputs
    .arr ((List.range (maxLength arrays)).map (fun i =>
      .num (arrays.foldl (fun sum arr => sum + numOr0 (alignedGet arr i)) 0)))
  else
    .num (inputs.foldl (fun result input => result + numOr0 input) 0)

/-- AddNode.execute. -/
def addExecute (e : ExecInput) : ExecResult :=
  .ok [("out", addCore (collectInputs e))]

/-- SubtractNode.execute after input collection. -/
def subtractCore (inputs : List JSVal) : JSVal :=
  if inputs.length = 0 then .num 0
  else if hasArray inputs then
    let arrays := toArrays inputs
    .arr ((List.range (maxLength arrays)).map (fun i =>
      .num ((arrays.drop 1).foldl (fun diff arr => diff - numOr0 (alignedGet arr i))
        (numOr0 (alignedGet (arrays.headD []) i)))))
  else
    .num ((inputs.drop 1).foldl (fun result input => result - numOr0 input)
      (numOr0 (inputs.headD .undefined)))

/-- SubtractNode.execute. -/
def subtractExecute (e : ExecInput) : ExecResult :=
  .ok [("out", subtractCore (collectInputs e))]

/-- MultiplyNode.execute after input collection. -/
def multiplyCore (inputs : List JSVal) : JSVal :=
  if inputs.length = 0 then .num 0
  else if hasArray inputs then
    let arrays := toArrays inputs
    .arr ((List.range (maxLength arrays)).map (fun i =>
      .num (arrays.foldl (fun product arr => product * numOr0 (alignedGet arr i)) 1)))
  else
    .num (inputs.foldl (fun result input => result * numOr0 input) 1)

/-- MultiplyNode.execute. -/
def multiplyExecute (e : ExecInput) : ExecResult :=
  .ok [("out", multiplyCore (collectInputs e))]

/-- One divisor application of DivideNode: coerce, guard zero, divide. -/
def divideStep (q : Rat) (v : JSVal) : Except String Rat :=
  let divisor := numOr0 v
  if divisor = 0 then .error "Division by zero in Divide node" else .ok (q / divisor)

/-- DivideNode.execute after input collection; a zero divisor throws. -/
def divideCore (inputs : List JSVal) : Except String JSVal :=
  if inputs.length = 0 then .ok (.num 0)
  else if hasArray inputs then
    let arrays := toArrays inputs
    ((List.range (maxLength arrays)).foldlM (fun acc i => do
      let q ← (arrays.drop 1).foldlM (fun quotient arr => divideStep quotient (alignedGet arr i))
        (numOr0 (alignedGet (arrays.headD []) i))
      return acc ++ [JSVal.num q]) ([] : List JSVal)).map .arr
  else
    ((inputs.drop 1).foldlM divideStep (numOr0 (inputs.headD .undefined))).map .num

/-- DivideNode.execute. -/
def divideExecute (e : ExecInput) : ExecResult :=
  (divideCore (collectInputs e)).map (fun v => [("out", v)])

/-! ### Helper lemmas on the broadcast folds -/

theorem foldl_add_eq_sum {α : Type} (l : List α) (g : α → Rat) (c : Rat) :
    l.foldl (fun s a => s + g a) c = c + (l.map g).sum := by
  induction l generalizing c with
  | nil => simp
  | cons a t ih => simp [ih, add_assoc]

theorem foldl_sub_eq_sub_sum {α : Type} (l : List α) (g : α → Rat) (c : Rat) :
    l.foldl (fun s a => s - g a) c = c - (l.map g).sum := by
  induction l generalizing c with
  | nil => simp
  | cons a t ih => simp [ih, sub_sub]

theorem foldl_mul_eq_mul_prod {α : Type} (l : List α) (g : α → Rat) (c : Rat) :
    l.foldl (fun s a => s * g a) c = c * (l.map g).prod := by
  induction l generalizing c with
  | nil => simp
  | cons a t ih => simp [ih, mul_assoc]

theorem pure_eq_ok {α : Type} (x : α) : (pure x : Except String α) = Except.ok x := rfl

theorem ok_bind {α β : Type} (x : α) (k : α → Except String β) :
    ((Except.ok x : Except String α) >>= k) = k x := rfl

theorem map_ok {α β : Type} (f : α → β) (x : α) :
    (Except.ok x : Except String α).map f = Except.ok (f x) := rfl

theorem foldlM_divideStep {α : Type} (l : List α) (g : α → JSVal) (c : Rat)
    (h : ∀ a ∈ l, numOr0 (g a) ≠ 0) :
    l.foldlM (fun q a => divideStep q (g a)) c =
      .ok (c / ((l.map (fun a => numOr0 (g a))).prod)) := by
  induction l generalizing c with
  | nil => simp [pure_eq_ok]
  | cons a t ih =>
    have ha : numOr0 (g a) ≠ 0 := h a (by simp)
    have ht : ∀ x ∈ t, numOr0 (g x) ≠ 0 := fun x hx => h x (by simp [hx])
    have hstep : divideStep c (g a) = Except.ok (c / numOr0 (g a)) := by
      simp [divideStep, ha]
    simp only [List.foldlM_cons, hstep, ok_bind]
    rw [ih _ ht, List.map_cons, List.prod_cons, div_div]

theorem foldlM_pushNum {α : Type} (l : List α) (inner : α → Except String Rat)
    (f : α → Rat) (h : ∀ a ∈ l, inner a = .ok (f a)) (acc : List JSVal) :
    (l.foldlM (fun acc a => (inner a) >>= fun q => Except.ok (acc ++ [JSVal.num q])) acc) =
      .ok (acc ++ l.map (fun a => .num (f a))) := by
  induction l generalizing acc with
  | nil => simp [pure_eq_ok]
  | cons a t ih =>
    have ha := h a (by simp)
    have ht : ∀ x ∈ t, inner x = .ok (f x) := fun x hx => h x (by simp [hx])
    simp only [List.foldlM_cons, ha, ok_bind]
    rw [ih ht]
    simp

theorem getD_map_range (n i : Nat) (f : Nat → JSVal) (hi : i < n) :
    ((List.range n).map f).getD i .undefined = f i := by
  rw [List.getD_eq_getElem?_getD]
  simp [List.getElem?_map, List.getElem?_range hi]

theorem getD_length_sub_one (arr : List JSVal) (h : arr ≠ []) :
    arr.getD (arr.length - 1) .undefined = arr.getLastD .undefined := by
  induction arr with
  | nil => simp at h
  | cons a t ih =>
    cases t with
    | nil => simp
    | cons b t2 =>
      have := ih (by simp)
      simpa using this

theorem hasArray_ne_nil {inputs : List JSVal} (h : hasArray inputs = true) :
    inputs ≠ [] := by
  intro hn; subst hn; simp [hasArray] at h

/-! ### Claim C1 -/

/-- C1: for the Add node (and likewise Subtract, Multiply, Divide), when at
least one collected input is an array, scalars become length-1 arrays, the
output is an array whose length is the longest input array's length, and at
each index an array shorter than the index reuses its last element (not
zero, not wraparound); the per-index value is the sum (resp. difference,
product, quotient) of the aligned coerced elements; and concretely
Add([1,2,3,4,5],[10,20]) = [11,22,23,24,25]. -/
theorem mathNodes_broadcast :
    (∀ v : JSVal, v.isArr = false → toArr v = [v]) ∧
    (∀ (arr : List JSVal) (i : Nat), i < arr.length →
      alignedGet arr i = arr.getD i .undefined) ∧
    (∀ (arr : List JSVal) (i : Nat), arr ≠ [] → arr.length ≤ i →
      alignedGet arr i = arr.getLastD .undefined) ∧
    (∀ inputs : List JSVal, hasArray inputs = true →
      ∃ out, addCore inputs = .arr out ∧
        out.length = maxLength (toArrays inputs) ∧
        ∀ i, i < out.length → out.getD i .undefined =
          .num (((toArrays inputs).map (fun arr => numOr0 (alignedGet arr i))).sum)) ∧
    (∀ inputs : List JSVal, hasArray inputs = true →
      ∃ out, subtractCore inputs = .arr out ∧
        out.length = maxLength (toArrays inputs) ∧
        ∀ i, i < out.length → out.getD i .undefined =
          .num (numOr0 (alignedGet ((toArrays inputs).headD []) i) -
            (((toArrays inputs).drop 1).map (fun arr => numOr0 (alignedGet arr i))).sum)) ∧
    (∀ inputs : List JSVal, hasArray inputs = true →
      ∃ out, multiplyCore inputs = .arr out ∧
        out.length = maxLength (toArrays inputs) ∧
        ∀ i, i < out.length → out.getD i .undefined =
          .num (((toArrays inputs).map (fun arr => numOr0 (alignedGet arr i))).prod)) ∧
    (∀ inputs : List JSVal, hasArray inputs = true →
      (∀ i, i < maxLength (toArrays inputs) → ∀ arr ∈ (toArrays inputs).drop 1,
        numOr0 (alignedGet arr i) ≠ 0) →
      ∃ out, divideCore inputs = .ok (.arr out) ∧
        out.length = maxLength (toArrays inputs) ∧
        ∀ i, i < out.length → out.getD i .undefined =
          .num (numOr0 (alignedGet ((toArrays inputs).headD []) i) /
            (((toArrays inputs).drop 1).map (fun arr => numOr0 (alignedGet arr i))).prod)) ∧
    addExecute { vals := [("input.in0", .arr [.num 1, .num 2, .num 3, .num 4, .num 5]),
                          ("input.in1", .arr [.num 10, .num 20])], data := NodeData.empty } =
      .ok [("out", .arr [.num 11, .num 22, .num 23, .num 24, .num 25])] := by
  refine ⟨?_, ?_, ?_, ?_, ?_, ?_, ?_, ?_⟩
  · intro v hv
    cases v
    case arr xs => simp [JSVal.isArr] at hv
    all_goals simp [toArr]
  · intro arr i hi
    simp [alignedGet, hi]
  · intro arr i hne hle
    rw [alignedGet, if_neg (by omega), getD_length_sub_one arr hne]
  · intro inputs h
    refine ⟨(List.range (maxLength (toArrays inputs))).map (fun i =>
      JSVal.num ((toArrays inputs).foldl (fun sum arr => sum + numOr0 (alignedGet arr i)) 0)),
      by simp [addCore, h], by simp, ?_⟩
    intro i hi
    simp only [List.length_map, List.length_range] at hi
    rw [getD_map_range _ _ _ hi, foldl_add_eq_sum, zero_add]
  · intro inputs h
    have hlen : ¬ inputs.length = 0 := by
      simpa [List.length_eq_zero] using hasArray_ne_nil h
    refine ⟨(List.range (maxLength (toArrays inputs))).map (fun i =>
      JSVal.num (((toArrays inputs).drop 1).foldl (fun diff arr => diff - numOr0 (alignedGet arr i))
        (numOr0 (alignedGet ((toArrays inputs).headD []) i)))),
      by simp [subtractCore, hlen, h], by simp, ?_⟩
    intro i hi
    simp only [List.length_map, List.length_range] at hi
    rw [getD_map_range _ _ _ hi, foldl_sub_eq_sub_sum]
  · intro inputs h
    have hlen : ¬ inputs.length = 0 := by
      simpa [List.length_eq_zero] using hasArray_ne_nil h
    refine ⟨(List.range (maxLength (toArrays inputs))).map (fun i =>
      JSVal.num ((toArrays inputs).foldl (fun product arr => product * numOr0 (alignedGet arr i)) 1)),
      by simp [multiplyCore, hlen, h], by simp, ?_⟩
    intro i hi
    simp only [List.length_map, List.length_range] at hi
    rw [getD_map_range _ _ _ hi, foldl_mul_eq_mul_prod, one_mul]
  · intro inputs h h0
    have hlen : ¬ inputs.length = 0 := by
      simpa [List.length_eq_zero] using hasArray_ne_nil h
    have hstep : ∀ i ∈ List.range (maxLength (toArrays inputs)),
        ((toArrays inputs).drop 1).foldlM
            (fun quotient arr => divideStep quotient (alignedGet arr i))
            (numOr0 (alignedGet ((toArrays inputs).headD []) i)) =
          .ok (numOr0 (alignedGet ((toArrays inputs).headD []) i) /
            (((toArrays inputs).drop 1).map (fun arr => numOr0 (alignedGet arr i))).prod) := by
      intro i hi
      exact foldlM_divideStep _ _ _ (h0 i (by simpa using hi))
    have hrw : (List.foldlM (fun acc i => do
          let q ← List.foldlM (fun quotient arr => divideStep quotient (alignedGet arr i))
              (numOr0 (alignedGet ((toArrays inputs).headD []) i)) (List.drop 1 (toArrays inputs))
          return acc ++ [JSVal.num q]) [] (List.range (maxLength (toArrays inputs)))) =
        Except.ok ((List.range (maxLength (toArrays inputs))).map (fun i =>
          JSVal.num (numOr0 (alignedGet ((toArrays inputs).headD []) i) /
            (((toArrays inputs).drop 1).map (fun arr => numOr0 (alignedGet arr i))).prod))) := by
      have h2 := foldlM_pushNum (List.range (maxLength (toArrays inputs)))
        (fun i => ((toArrays inputs).drop 1).foldlM
            (fun quotient arr => divideStep quotient (alignedGet arr i))
            (numOr0 (alignedGet ((toArrays inputs).headD []) i)))
        (fun i => numOr0 (alignedGet ((toArrays inputs).headD []) i) /
            (((toArrays inputs).drop 1).map (fun arr => numOr0 (alignedGet arr i))).prod)
        hstep []
      simpa using h2
    refine ⟨(List.range (maxLength (toArrays inputs))).map (fun i =>
      JSVal.num (numOr0 (alignedGet ((toArrays inputs).headD []) i) /
        (((toArrays inputs).drop 1).map (fun arr => numOr0 (alignedGet arr i))).prod)),
      ?_, by simp, ?_⟩
    · simp only [divideCore, hlen, if_false, h, if_true]
      rw [hrw, map_ok]
    · intro i hi
      simp only [List.length_map, List.length_range] at hi
      rw [getD_map_range _ _ _ hi]
  · have h : addExecute { vals := [("input.in0", .arr [.num 1, .num 2, .num 3, .num 4, .num 5]),
        ("input.in1", .arr [.num 10, .num 20])], data := NodeData.empty } =
        .ok [("out", .arr [.num (0+1+10), .num (0+2+20), .num (0+3+20), .num (0+4+20),
          .num (0+5+20)])] := rfl
    rw [h]
    norm_num

/-- Witness for C1 at a concrete input with an array present. -/
theorem mathNodes_broadcast_witness :
    hasArray [JSVal.arr [.num 1, .num 2], JSVal.num 10] = true ∧
    (∃ out, addCore [JSVal.arr [.num 1, .num 2], JSVal.num 10] = .arr out ∧
      out.length = maxLength (toArrays [JSVal.arr [.num 1, .num 2], JSVal.num 10]) ∧
      ∀ i, i < out.length → out.getD i .undefined =
        .num (((toArrays [JSVal.arr [.num 1, .num 2], JSVal.num 10]).map
          (fun arr => numOr0 (alignedGet arr i))).sum)) :=
  ⟨rfl, mathNodes_broadcast.2.2.2.1 [JSVal.arr [.num 1, .num 2], JSVal.num 10] rfl⟩

/-! ### Claim C9 -/

/-- C9: a math node executing with `in0` undefined collects zero inputs and
writes the scalar 0 to `out`; in particular Multiply with no inputs outputs
0, not the empty-product identity 1. -/
theorem mathNodes_empty_input :
    ∀ e : ExecInput, getInput e (inPort 0) = .undefined →
      collectInputs e = [] ∧
      addExecute e = .ok [("out", .num 0)] ∧
      subtractExecute e = .ok [("out", .num 0)] ∧
      multiplyExecute e = .ok [("out", .num 0)] ∧
      divideExecute e = .ok [("out", .num 0)] := by
  intro e h
  have hc : collectInputs e = [] := by
    simp [collectInputs, collectInputsAux, h, JSVal.isUndef]
  refine ⟨hc, ?_, ?_, ?_, ?_⟩
  · simp [addExecute, hc, addCore, hasArray]
  · simp [subtractExecute, hc, subtractCore]
  · simp [multiplyExecute, hc, multiplyCore]
  · simp [divideExecute, hc, divideCore, Except.map]

/-- Witness for C9: a node with nothing staged. -/
theorem mathNodes_empty_input_witness :
    getInput { vals := [], data := NodeData.empty } (inPort 0) = .undefined ∧
    multiplyExecute { vals := [], data := NodeData.empty } = .ok [("out", .num 0)] :=
  ⟨rfl, (mathNodes_empty_input { vals := [], data := NodeData.empty } rfl).2.2.2.1⟩

/-! ### IfNode (control/index.ts) -/

/-- The array-condition filtering loop of IfNode: `condition.forEach` over
the indexed booleans, appending the true-array (resp. false-array) element
when the index is in bounds. -/
def ifFilter (conds trueArray falseArray : List JSVal) : List JSVal × List JSVal :=
  conds.enum.foldl (fun (acc : List JSVal × List JSVal) p =>
    if truthy p.2 then
      if p.1 < trueArray.length then (acc.1 ++ [trueArray.getD p.1 .undefined], acc.2) else acc
    else
      if p.1 < falseArray.length then (acc.1, acc.2 ++ [falseArray.getD p.1 .undefined]) else acc)
    ([], [])

/-- IfNode.execute: an array condition filters the (singleton-coerced)
inputs; a scalar condition selects one of them onto `out`. -/
def ifExecute (e : ExecInput) : ExecResult :=
  let condition := getInput e "condition"
  let trueValue := getInput e "true"
  let falseValue := getInput e "false"
  match condition with
  | .arr conds =>
    let results := ifFilter conds (toArr trueValue) (toArr falseValue)
    .ok [("trueOut", .arr results.1), ("falseOut", .arr results.2), ("out", .arr results.1)]
  | c =>
    if truthy c then .ok [("out", trueValue)] else .ok [("out", falseValue)]

/-! ### SwitchNode (control/index.ts) -/

/-- The Switch matching loop: first case whose key (already a string, since
JS object keys are strings) equals `String(value)` wins and receives the
value; no match falls through to the `default` port. -/
def switchLoop (value : JSVal) : List (String × String) → ExecResult
  | [] => .ok [("default", value)]
  | (caseValue, outputPort) :: rest =>
    if jsToString value = caseValue then .ok [(outputPort, value)]
    else switchLoop value rest

/-- SwitchNode.execute. -/
def switchExecute (e : ExecInput) : ExecResult :=
  switchLoop (getInput e "value") e.data.cases

/-! ### ReduceNode (array/index.ts) -/

/-- Inferred-type record entries (types.ts `InferredTypeInfo`). -/
structure InferredTypeInfo where
  inferredType : String
  declaredType : Option String
  isCompatible : Bool

/-- The evaluator's result record (types.ts `EvaluationResult`). -/
structure EvalResult where
  success : Bool
  outputs : List (String × JSVal)
  inferredTypes : Option (List (String × InferredTypeInfo))
  error : Option String

/-- `createReduceSubgraphWithInputs`: clone the node list, replacing the
accumulator slot (id `accumulator` or `acc`) and the element slot (id
`element` or `current`) by Value nodes whose data is the fresh record
holding just the substituted value. -/
def createReduceSubgraphWithInputs (subgraph : Graph) (accumulator element : JSVal) : Graph :=
  .mk (subgraph.nodes.map (fun node =>
    if node.id = "accumulator" ∨ node.id = "acc" then
      .mk node.id "Value" (.mk accumulator [] none)
    else if node.id = "element" ∨ node.id = "current" then
      .mk node.id "Value" (.mk element [] none)
    else node)) subgraph.edges

/-- `key.includes(sub)` on ordinary strings. -/
def strContains (s sub : String) : Bool :=
  (jsSplitOn s sub).length ≠ 1

/-- `extractSubgraphOutput`: first output entry whose key mentions
`output.` or `result.`, else the last entry's value, else undefined. -/
def extractSubgraphOutput (outputs : List (String × JSVal)) : JSVal :=
  match outputs.find? (fun p => strContains p.1 "output." || strContains p.1 "result.") with
  | some p => p.2
  | none =>
    match outputs.getLast? with
    | some p => p.2
    | none => .undefined

/-- The sequential Reduce iteration from the start index on: evaluate the
modified subgraph, fail on an unsuccessful sub-evaluation, otherwise thread
the extracted output as the next accumulator.  `evalG` stands for the fresh
`GraphEvaluator(...).evaluate()` the source constructs per step. -/
def reduceLoop (evalG : Graph → EvalResult) (subgraph : Graph) :
    List JSVal → JSVal → Except String JSVal
  | [], accumulator => .ok accumulator
  | element :: rest, accumulator =>
    let result := evalG (createReduceSubgraphWithInputs subgraph accumulator element)
    if result.success then
      reduceLoop evalG subgraph rest (extractSubgraphOutput result.outputs)
    else
      .error ("Reduce subgraph evaluation failed: " ++ result.error.getD "undefined")

/-- ReduceNode.execute (evaluator-parameterized). -/
def reduceExecute (evalG : Graph → EvalResult) (e : ExecInput) : ExecResult :=
  let inputArray := getInput e "array"
  let initialValue := getInput e "initial"
  match inputArray with
  | .arr xs =>
    match e.data.subgraph with
    | none => .ok [("out", initialValue)]
    | some sub =>
      let accumulator := if initialValue.isUndef = false then initialValue
                         else if 0 < xs.length then xs.getD 0 .undefined else .undefined
      let startIndex : Nat := if initialValue.isUndef = false then 0 else 1
      match reduceLoop evalG sub (xs.drop startIndex) accumulator with
      | .ok acc => .ok [("out", acc)]
      | .error msg => .error msg
  | _ => .error "Reduce node requires an array input"

/-! ### Claim C5 -/

theorem ifFilter_go (tA fA : List JSVal) (l : List (Nat × JSVal)) :
    ∀ acc1 acc2 : List JSVal,
    l.foldl (fun (acc : List JSVal × List JSVal) p =>
      if truthy p.2 then
        if p.1 < tA.length then (acc.1 ++ [tA.getD p.1 .undefined], acc.2) else acc
      else
        if p.1 < fA.length then (acc.1, acc.2 ++ [fA.getD p.1 .undefined]) else acc)
      (acc1, acc2) =
    (acc1 ++ l.filterMap (fun p =>
        if truthy p.2 = true ∧ p.1 < tA.length then some (tA.getD p.1 .undefined) else none),
     acc2 ++ l.filterMap (fun p =>
        if truthy p.2 = false ∧ p.1 < fA.length then some (fA.getD p.1 .undefined) else none)) := by
  induction l with
  | nil => simp
  | cons p rest ih =>
    intro acc1 acc2
    by_cases hc : truthy p.2
    · by_cases hi : p.1 < tA.length
      · simp only [List.foldl_cons, hc, if_true, hi, List.filterMap_cons, ih]
        simp [hc, hi]
      · simp only [List.foldl_cons, hc, if_true, hi, if_false, List.filterMap_cons, ih]
        simp [hc, hi]
    · by_cases hi : p.1 < fA.length
      · simp only [List.foldl_cons, hc, if_false, hi, if_true, List.filterMap_cons, ih]
        simp [hc, hi]
      · simp only [List.foldl_cons, hc, if_false, hi, List.filterMap_cons, ih]
        simp [hc, hi]

/-- The spec's concrete If example: a five-element boolean condition and
matching five-element true/false inputs. -/
def egIfInput : ExecInput :=
  { vals := [("input.condition",
        .arr [.bool true, .bool false, .bool true, .bool false, .bool true]),
      ("input.true", .arr [.num 10, .num 20, .num 30, .num 40, .num 50]),
      ("input.false", .arr [.num 10, .num 20, .num 30, .num 40, .num 50])],
    data := NodeData.empty }

/-- A two-element boolean condition with nothing staged on true/false. -/
def egIfSmall : ExecInput :=
  { vals := [("input.condition", JSVal.arr [.bool true, .bool false])],
    data := NodeData.empty }

/-- C5: with an array condition, IfNode appends `trueArray[i]` to `trueOut`
for each index with a truthy condition that is within the singleton-coerced
true-input's bounds, appends `falseArray[i]` to `falseOut` for each index
with a falsy condition within the false-input's bounds, skips out-of-bounds
indices entirely (no last-element broadcast), and mirrors `trueOut` on
`out`; concretely If([true,false,true,false,true], [10,20,30,40,50],
[10,20,30,40,50]) gives trueOut [10,30,50] and falseOut [20,40]. -/
theorem ifNode_array_filter :
    (∀ (e : ExecInput) (conds : List JSVal), getInput e "condition" = .arr conds →
      ∃ tOut fOut,
        ifExecute e = .ok [("trueOut", .arr tOut), ("falseOut", .arr fOut), ("out", .arr tOut)] ∧
        tOut = conds.enum.filterMap (fun p =>
          if truthy p.2 = true ∧ p.1 < (toArr (getInput e "true")).length
          then some ((toArr (getInput e "true")).getD p.1 .undefined) else none) ∧
        fOut = conds.enum.filterMap (fun p =>
          if truthy p.2 = false ∧ p.1 < (toArr (getInput e "false")).length
          then some ((toArr (getInput e "false")).getD p.1 .undefined) else none)) ∧
    ifExecute egIfInput =
      .ok [("trueOut", .arr [.num 10, .num 30, .num 50]),
           ("falseOut", .arr [.num 20, .num 40]),
           ("out", .arr [.num 10, .num 30, .num 50])] := by
  constructor
  · intro e conds hc
    refine ⟨_, _, ?_, rfl, rfl⟩
    simp only [ifExecute, hc, ifFilter, ifFilter_go, List.nil_append]
  · rfl

/-- Witness for C5 at a concrete array condition. -/
theorem ifNode_array_filter_witness :
    getInput egIfSmall "condition" = .arr [.bool true, .bool false] ∧
    ∃ tOut fOut,
      ifExecute egIfSmall =
        .ok [("trueOut", .arr tOut), ("falseOut", .arr fOut), ("out", .arr tOut)] :=
  ⟨rfl, by
    obtain ⟨t, f, h, -, -⟩ := ifNode_array_filter.1 egIfSmall [.bool true, .bool false] rfl
    exact ⟨t, f, h⟩⟩

/-! ### Claim C6 -/

/-- C6: Switch compares `String(value)` against each case key in mapping
iteration order; the first match routes the unchanged value to that case's
port, no match routes it to `default`, and exactly one output port receives
a value. -/
theorem switchNode_routing :
    (∀ (e : ExecInput) (c : String × String),
      (e.data.cases.find? (fun kv => jsToString (getInput e "value") = kv.1)) = some c →
      switchExecute e = .ok [(c.2, getInput e "value")]) ∧
    (∀ e : ExecInput,
      (e.data.cases.find? (fun kv => jsToString (getInput e "value") = kv.1)) = none →
      switchExecute e = .ok [("default", getInput e "value")]) ∧
    (∀ e : ExecInput, ∃ port, switchExecute e = .ok [(port, getInput e "value")]) := by
  have key : ∀ (v : JSVal) (cs : List (String × String)),
      switchLoop v cs = (match cs.find? (fun kv => jsToString v = kv.1) with
        | some c => .ok [(c.2, v)]
        | none => .ok [("default", v)]) := by
    intro v cs
    induction cs with
    | nil => simp [switchLoop]
    | cons kv rest ih =>
      by_cases h : jsToString v = kv.1
      · simp [switchLoop, h, List.find?_cons, ih]
      · simp [switchLoop, h, List.find?_cons, ih]
  refine ⟨?_, ?_, ?_⟩
  · intro e c hfind
    rw [switchExecute, key, hfind]
  · intro e hfind
    rw [switchExecute, key, hfind]
  · intro e
    rw [switchExecute, key]
    cases hfind : e.data.cases.find? (fun kv => jsToString (getInput e "value") = kv.1) with
    | some c => exact ⟨c.2, rfl⟩
    | none => exact ⟨"default", rfl⟩

/-- A Switch node input: value `option2` with a two-case table. -/
def egSwitchInput : ExecInput :=
  { vals := [("input.value", .str "option2")],
    data := .mk .undefined [("option1", "case1"), ("option2", "case2")] none }

/-- Witness for C6: first match wins among the configured cases. -/
theorem switchNode_routing_witness :
    (egSwitchInput.data.cases.find?
      (fun kv => jsToString (getInput egSwitchInput "value") = kv.1)) =
        some ("option2", "case2") ∧
    switchExecute egSwitchInput = .ok [("case2", .str "option2")] :=
  ⟨rfl, switchNode_routing.1 egSwitchInput ("option2", "case2") rfl⟩

/-! ### Claim C7 -/

theorem reduceLoop_all_success (f : Graph → EvalResult) (sub : Graph)
    (hall : ∀ g, (f g).success = true) :
    ∀ (l : List JSVal) (acc : JSVal),
      reduceLoop f sub l acc = .ok (l.foldl (fun acc element =>
        extractSubgraphOutput (f (createReduceSubgraphWithInputs sub acc element)).outputs) acc) := by
  intro l
  induction l with
  | nil => intro acc; rfl
  | cons x rest ih =>
    intro acc
    simp only [reduceLoop, hall, if_true, ih, List.foldl_cons]

/-- C7: Reduce with a configured subgraph threads the accumulator through
the per-element subgraph evaluations in index order: with a defined
`initial` input the fold starts at index 0 with that accumulator; without
it the fold starts at index 1 with the array's first element; each step's
extracted subgraph output becomes the next accumulator, and an empty array
without `initial` puts undefined on `out`.  Stated under the assumption
that every per-step sub-evaluation succeeds (a failing one aborts). -/
theorem reduceNode_accumulator :
    ∀ (f : Graph → EvalResult) (e : ExecInput) (xs : List JSVal) (sub : Graph),
      (∀ g, (f g).success = true) →
      getInput e "array" = .arr xs → e.data.subgraph = some sub →
      ((getInput e "initial").isUndef = false →
        reduceExecute f e = .ok [("out", xs.foldl (fun acc element =>
          extractSubgraphOutput
            (f (createReduceSubgraphWithInputs sub acc element)).outputs)
          (getInput e "initial"))]) ∧
      (∀ y rest, (getInput e "initial").isUndef = true → xs = y :: rest →
        reduceExecute f e = .ok [("out", rest.foldl (fun acc element =>
          extractSubgraphOutput
            (f (createReduceSubgraphWithInputs sub acc element)).outputs) y)]) ∧
      ((getInput e "initial").isUndef = true → xs = [] →
        reduceExecute f e = .ok [("out", .undefined)]) := by
  intro f e xs sub hall harr hsub
  refine ⟨?_, ?_, ?_⟩
  · intro hinit
    simp only [reduceExecute, harr, hsub, hinit, if_false, if_true, Bool.false_eq_true,
      List.drop_zero, reduceLoop_all_success f sub hall]
  · intro y rest hinit hxs
    subst hxs
    simp only [reduceExecute, harr, hsub, hinit, reduceLoop_all_success f sub hall]
    simp
  · intro hinit hxs
    subst hxs
    simp only [reduceExecute, harr, hsub, hinit, reduceLoop_all_success f sub hall]
    simp

/-- A Reduce node input: a two-element array, no `initial`, an empty
subgraph configured. -/
def egReduceInput : ExecInput :=
  { vals := [("input.array", JSVal.arr [.num 1, .num 2])],
    data := .mk .undefined [] (some (.mk [] [])) }

/-- A constant sub-evaluation oracle whose outputs expose an
`output.`-keyed entry. -/
def egReduceOracle : Graph → EvalResult :=
  fun _ => EvalResult.mk true [("n.output.v", JSVal.num 5)] none none

/-- Witness for C7: no initial accumulator, two elements. -/
theorem reduceNode_accumulator_witness :
    (∀ g : Graph, (egReduceOracle g).success = true) ∧
    getInput egReduceInput "array" = .arr [.num 1, .num 2] ∧
    reduceExecute egReduceOracle egReduceInput = .ok [("out", .num 5)] := by
  refine ⟨fun _ => rfl, rfl, ?_⟩
  have h := (reduceNode_accumulator egReduceOracle egReduceInput
    [.num 1, .num 2] (.mk [] []) (fun _ => rfl) rfl rfl).2.1 (.num 1) [.num 2] rfl rfl
  rw [h]
  rfl

/-! ### The graph evaluator (evaluator.ts)

`evaluate()` dispatches all start nodes through `Promise.all` and cascades
through `executeNode` / `propagateOutputs`, whose `await`s suspend at
well-defined points.  Node `execute` bodies are synchronous, so each task
owns a stack of suspended frames: the half of `executeNode` after
`await definition.execute(...)` (marking + propagation), and the
propagation loop resumed at its remaining outgoing edges.  A turn pops the
front task of the FIFO microtask queue, runs it synchronously to its next
suspension, and appends the continuation at the back — which is exactly how
the JS `await`s interleave independent branches.  A thrown error rejects
the whole `Promise.all` and aborts the run.  The `execLog` field is pure
instrumentation recording each invocation of a node's `execute`. -/

/-- A port specification (types.ts `PortSpec`). -/
structure PortSpec where
  name : String
  type : String

/-- A registered node definition: the fields the evaluator reads. -/
structure NodeDef where
  type : String
  category : String
  inputs : Option (List PortSpec)
  outputs : Option (List PortSpec)
  exec : ExecInput → ExecResult

/-- The node registry (`registry.get`). -/
abbrev Registry := String → Option NodeDef

/-- Evaluator state: per-node value maps, inferred types, the executed set,
plus the execution log instrumentation. -/
structure EvalState where
  nodeValues : List (String × VMap)
  inferredTypes : List (String × InferredTypeInfo)
  executed : List String
  execLog : List String

def EvalState.init : EvalState := ⟨[], [], [], []⟩

/-- Read a node's value map (an absent node reads as the empty map, as the
optional chaining does). -/
def nvGet (nv : List (String × VMap)) (nodeId : String) : VMap :=
  match nv.find? (fun p => p.1 = nodeId) with
  | some p => p.2
  | none => []

/-- Write a node's value map (JS `Map.set` at the outer level). -/
def nvSet : List (String × VMap) → String → VMap → List (String × VMap)
  | [], k, m => [(k, m)]
  | p :: rest, k, m => if p.1 = k then (k, m) :: rest else p :: nvSet rest k m

/-- `createNodeContext`'s `if (!this.nodeValues.has(id)) set(id, new Map())`. -/
def nvEnsure (nv : List (String × VMap)) (nodeId : String) : List (String × VMap) :=
  if (nv.find? (fun p => p.1 = nodeId)).isSome then nv else nv ++ [(nodeId, [])]

/-- Insertion-ordered set insert for the executed set. -/
def sAdd (l : List String) (x : String) : List String :=
  if x ∈ l then l else l ++ [x]

/-- Assoc update for the inferred-types map. -/
def itSet : List (String × InferredTypeInfo) → String → InferredTypeInfo →
    List (String × InferredTypeInfo)
  | [], k, v => [(k, v)]
  | p :: rest, k, v => if p.1 = k then (k, v) :: rest else p :: itSet rest k v

/-- `inferTypeForPort`: record the runtime tag of a value at `nodeId.port`
together with the declared type and their compatibility. -/
def inferTypeForPort (s : EvalState) (nodeId port : String) (value : JSVal)
    (declaredType : Option String) : EvalState :=
  let info : InferredTypeInfo :=
    ⟨getValueType value, declaredType,
      match declaredType with
      | some t => isTypeCompatible value t
      | none => true⟩
  { s with inferredTypes := itSet s.inferredTypes (nodeId ++ "." ++ port) info }

/-- Apply a node's `setOutputValue` writes in order: store the value and
immediately infer its type against the declared output spec. -/
def applyWrites (n : GraphNode) (d : NodeDef) : EvalState → List (String × JSVal) → EvalState
  | s, [] => s
  | s, (port, v) :: rest =>
    let s1 := { s with nodeValues := nvSet s.nodeValues n.id (mset (nvGet s.nodeValues n.id) port v) }
    let s2 := inferTypeForPort s1 n.id port v
      ((d.outputs.bind (fun outs => outs.find? (fun p => p.name = port))).map (fun p => p.type))
    applyWrites n d s2 rest

/-- The output-side type check of `propagateOutputs` (a mismatch on a
written, defined value throws). -/
def outputTypeCheck (reg : Registry) (n : GraphNode) (port : String) (value : JSVal) :
    Except String Unit :=
  match reg n.type with
  | some definition =>
    match definition.outputs with
    | some outs =>
      match outs.find? (fun p => p.name = port) with
      | some outputPort =>
        if !value.isUndef && !isTypeCompatible value outputPort.type then
          .error ("Type mismatch at node \x27" ++ n.id ++ "\x27 output port \x27" ++ port ++
            "\x27: expected \x27" ++ outputPort.type ++ "\x27 but got \x27" ++
            getValueType value ++ "\x27")
        else .ok ()
      | none => .ok ()
    | none => .ok ()
  | none => .ok ()

/-- The input-side type check of `propagateOutputs`. -/
def inputTypeCheck (reg : Registry) (n : GraphNode) (srcPort : String) (target : GraphNode)
    (port : String) (value : JSVal) : Except String Unit :=
  match reg target.type with
  | some targetDefinition =>
    match targetDefinition.inputs with
    | some ins =>
      match ins.find? (fun p => p.name = port) with
      | some inputPort =>
        if !value.isUndef && !isTypeCompatible value inputPort.type then
          .error ("Type mismatch: cannot connect \x27" ++ n.type ++ "." ++ srcPort ++
            "\x27 (" ++ getValueType value ++ ") to \x27" ++ target.type ++ "." ++ port ++
            "\x27 (expected " ++ inputPort.type ++ ")")
        else .ok ()
      | none => .ok ()
    | none => .ok ()
  | none => .ok ()

/-- The declared spec of a target's input port, for input-type inference. -/
def inputPortSpecType (reg : Registry) (target : GraphNode) (port : String) : Option String :=
  ((reg target.type).bind (fun d => d.inputs)).bind
    (fun ins => (ins.find? (fun p => p.name = port)).map (fun p => p.type))

/-- A suspended continuation: the post-`await` half of `executeNode`
(marking + propagation), or the propagation loop at its remaining edges. -/
inductive Frame where
  | execPost (node : GraphNode)
  | propagate (node : GraphNode) (rest : List GraphEdge)

/-- One task of the cooperative scheduler: a stack of suspended frames,
innermost first. -/
abbrev Task := List Frame

/-- Run a node's `execute` synchronously: guard is already checked by the
caller; throws on a registry miss; logs the invocation; applies the writes. -/
def execNodeBody (reg : Registry) (s : EvalState) (target : GraphNode) :
    Except String EvalState :=
  match reg target.type with
  | none => .error ("Node type \x27" ++ target.type ++ "\x27 not found in registry")
  | some tdef =>
    let s1 := { s with nodeValues := nvEnsure s.nodeValues target.id,
                       execLog := s.execLog ++ [target.id] }
    match tdef.exec { vals := nvGet s1.nodeValues target.id, data := target.data } with
    | .error msg => .error msg
    | .ok writes => .ok (applyWrites target tdef s1 writes)

/-- Process the propagation loop of node `n` from the given edges until the
turn's next suspension: each edge is type-checked, staged into the target
and then `await executeNode(target)` either skips (already executed,
re-queueing the loop), or runs the target's `execute` synchronously and
suspends with the target's post-execute frame on top. -/
def processEdges (g : Graph) (reg : Registry) (n : GraphNode) :
    List GraphEdge → List Frame → EvalState → Except String (EvalState × Option Task)
  | [], stack, s => .ok (s, some stack)
  | e :: rest, stack, s =>
    let value := mget (nvGet s.nodeValues e.from'.node) e.from'.port
    match outputTypeCheck reg n e.from'.port value with
    | .error msg => .error msg
    | .ok _ =>
      match g.nodes.find? (fun t => t.id = e.to'.node) with
      | none => processEdges g reg n rest stack s
      | some target =>
        match inputTypeCheck reg n e.from'.port target e.to'.port value with
        | .error msg => .error msg
        | .ok _ =>
          let nv1 := nvEnsure s.nodeValues target.id
          let staged := mset (nvGet nv1 target.id) ("input." ++ e.to'.port) value
          let s1 := { s with nodeValues := nvSet nv1 target.id staged }
          let s2 := inferTypeForPort s1 target.id ("input." ++ e.to'.port) value
              (inputPortSpecType reg target e.to'.port)
          if target.id ∈ s2.executed then
            .ok (s2, some (Frame.propagate n rest :: stack))
          else
            match execNodeBody reg s2 target with
            | .error msg => .error msg
            | .ok s3 => .ok (s3, some (Frame.execPost target :: Frame.propagate n rest :: stack))

/-- Edges leaving a node. -/
def outgoingEdges (g : Graph) (nodeId : String) : List GraphEdge :=
  g.edges.filter (fun e => e.from'.node = nodeId)

/-- Run one turn: resume the task's top frame. -/
def runTurn (g : Graph) (reg : Registry) :
    Frame → List Frame → EvalState → Except String (EvalState × Option Task)
  | .execPost n, stack, s =>
    let s1 := { s with executed := sAdd s.executed n.id }
    processEdges g reg n (outgoingEdges g n.id) stack s1
  | .propagate n rest, stack, s => processEdges g reg n rest stack s

/-- The FIFO microtask loop.  `none` means the fuel ran out (the modelled
computation did not finish within the given number of turns). -/
def runQueue (g : Graph) (reg : Registry) : Nat → List Task → EvalState →
    Option (Except String EvalState)
  | 0, _, _ => none
  | _ + 1, [], s => some (.ok s)
  | fuel + 1, [] :: queue, s => runQueue g reg fuel queue s
  | fuel + 1, (fr :: frs) :: queue, s =>
    match runTurn g reg fr frs s with
    | .error e => some (.error e)
    | .ok (s', none) => runQueue g reg fuel queue s'
    | .ok (s', some t) => runQueue g reg fuel (queue ++ [t]) s'

/-- `findStartNodes`: nodes with no incoming edge. -/
def findStartNodes (g : Graph) : List GraphNode :=
  g.nodes.filter (fun node => !(g.edges.any (fun e => e.to'.node = node.id)))

/-- The `startNodes.map(node => this.executeNode(node))` dispatch: each
start node's entry runs synchronously up to its first suspension, in list
order, yielding one suspended task per freshly executed start node.  A
synchronous throw rejects the whole run. -/
def startTasks (g : Graph) (reg : Registry) :
    List GraphNode → EvalState → Except String (EvalState × List Task)
  | [], s => .ok (s, [])
  | n :: rest, s =>
    if n.id ∈ s.executed then startTasks g reg rest s
    else
      match execNodeBody reg s n with
      | .error msg => .error msg
      | .ok s1 =>
        match startTasks g reg rest s1 with
        | .error msg => .error msg
        | .ok (s2, tasks) => .ok (s2, [Frame.execPost n] :: tasks)

/-- Run a whole evaluation, returning the final state (`none` = fuel ran
out). -/
def runGraph (g : Graph) (reg : Registry) (fuel : Nat) :
    Option (Except String EvalState) :=
  match startTasks g reg (findStartNodes g) EvalState.init with
  | .error e => some (.error e)
  | .ok (s, tasks) => runQueue g reg fuel tasks s

/-- `evaluate()`'s final `outputs` record: flatten every node's entire
per-node value map under keys `nodeId.port` (JS object assignment:
an existing key keeps its position and takes the new value). -/
def flattenOutputs (nv : List (String × VMap)) : List (String × JSVal) :=
  nv.foldl (fun acc p =>
    p.2.foldl (fun acc q => mset acc (p.1 ++ "." ++ q.1) q.2) acc) []

/-- `evaluate()`: catch converts any thrown error into a failure result
with empty outputs; success flattens the value maps and reports the
accumulated inferred types. -/
def evaluateFuel (g : Graph) (reg : Registry) (fuel : Nat) : Option EvalResult :=
  match runGraph g reg fuel with
  | none => none
  | some (.error e) => some { success := false, outputs := [], inferredTypes := none,
                              error := some e }
  | some (.ok s) => some { success := true, outputs := flattenOutputs s.nodeValues,
                           inferredTypes := some s.inferredTypes, error := none }

/-- The execution log of a run (instrumentation projection). -/
def runLog (g : Graph) (reg : Registry) (fuel : Nat) : Option (List String) :=
  match runGraph g reg fuel with
  | some (.ok s) => some s.execLog
  | _ => none

/-! ### The registered node definitions used by the concrete runs -/

/-- ValueNode (special/index.ts): outputs its configured `data.value`. -/
def ValueDef : NodeDef :=
  { type := "Value", category := "special", inputs := some [],
    outputs := some [⟨"out", "any"⟩],
    exec := fun e => .ok [("out", e.data.value)] }

def AddDef : NodeDef :=
  { type := "Add", category := "math", inputs := some [],
    outputs := some [⟨"out", "number"⟩], exec := addExecute }

def SubtractDef : NodeDef :=
  { type := "Subtract", category := "math", inputs := some [],
    outputs := some [⟨"out", "number"⟩], exec := subtractExecute }

def MultiplyDef : NodeDef :=
  { type := "Multiply", category := "math", inputs := some [],
    outputs := some [⟨"out", "number"⟩], exec := multiplyExecute }

def DivideDef : NodeDef :=
  { type := "Divide", category := "math", inputs := some [],
    outputs := some [⟨"out", "number"⟩], exec := divideExecute }

def IfDef : NodeDef :=
  { type := "If", category := "control",
    inputs := some [⟨"condition", "boolean"⟩, ⟨"true", "any"⟩, ⟨"false", "any"⟩],
    outputs := some [⟨"out", "any"⟩, ⟨"trueOut", "any"⟩, ⟨"falseOut", "any"⟩],
    exec := ifExecute }

def SwitchDef : NodeDef :=
  { type := "Switch", category := "control", inputs := some [⟨"value", "any"⟩],
    outputs := some [⟨"default", "any"⟩], exec := switchExecute }

/-- The registry holding the modelled node definitions. -/
def stdRegistry : Registry := fun t =>
  if t = "Value" then some ValueDef
  else if t = "Add" then some AddDef
  else if t = "Subtract" then some SubtractDef
  else if t = "Multiply" then some MultiplyDef
  else if t = "Divide" then some DivideDef
  else if t = "If" then some IfDef
  else if t = "Switch" then some SwitchDef
  else none

/-! ### Example graphs for the evaluator claims -/

/-- Two Value nodes 10 and 0 feeding a Divide node's in0/in1. -/
def egDivGraph : Graph :=
  .mk [.mk "v1" "Value" (.mk (.num 10) [] none),
       .mk "v2" "Value" (.mk (.num 0) [] none),
       .mk "d" "Divide" NodeData.empty]
     [⟨⟨"v1", "out"⟩, ⟨"d", "in0"⟩⟩, ⟨⟨"v2", "out"⟩, ⟨"d", "in1"⟩⟩]

/-- Two independent Value start nodes fanning into one Add node. -/
def egTwoStart : Graph :=
  .mk [.mk "a" "Value" (.mk (.num 1) [] none),
       .mk "b" "Value" (.mk (.num 2) [] none),
       .mk "x" "Add" NodeData.empty]
     [⟨⟨"a", "out"⟩, ⟨"x", "in0"⟩⟩, ⟨⟨"b", "out"⟩, ⟨"x", "in1"⟩⟩]

/-- A Value node propagating into an Add node along one edge. -/
def egFlowGraph : Graph :=
  .mk [.mk "v" "Value" (.mk (.num 10) [] none),
       .mk "add" "Add" NodeData.empty]
     [⟨⟨"v", "out"⟩, ⟨"add", "in0"⟩⟩]

/-! ### Error-propagation lemmas for Divide -/

theorem err_bind {α β : Type} (e : String) (k : α → Except String β) :
    ((Except.error e : Except String α) >>= k) = .error e := rfl

theorem map_err {α β : Type} (f : α → β) (e : String) :
    (Except.error e : Except String α).map f = .error e := rfl

theorem foldlM_divideStep_err {α : Type} (l : List α) (g : α → JSVal) (c : Rat)
    (h : ∃ a ∈ l, numOr0 (g a) = 0) :
    l.foldlM (fun q a => divideStep q (g a)) c = .error "Division by zero in Divide node" := by
  induction l generalizing c with
  | nil => obtain ⟨a, ha, -⟩ := h; simp at ha
  | cons a t ih =>
    by_cases h0 : numOr0 (g a) = 0
    · have hstep : divideStep c (g a) = .error "Division by zero in Divide node" := by
        simp [divideStep, h0]
      simp only [List.foldlM_cons, hstep, err_bind]
    · have hstep : divideStep c (g a) = .ok (c / numOr0 (g a)) := by
        simp [divideStep, h0]
      simp only [List.foldlM_cons, hstep, ok_bind]
      obtain ⟨x, hx, hx0⟩ := h
      rcases List.mem_cons.mp hx with hx | hx
      · rw [hx] at hx0; exact absurd hx0 h0
      · exact ih _ ⟨x, hx, hx0⟩

theorem foldlM_divideStep_err_or_ok {α : Type} (l : List α) (g : α → JSVal) (c : Rat) :
    l.foldlM (fun q a => divideStep q (g a)) c = .error "Division by zero in Divide node" ∨
      ∃ b, l.foldlM (fun q a => divideStep q (g a)) c = .ok b := by
  induction l generalizing c with
  | nil => exact Or.inr ⟨c, rfl⟩
  | cons a t ih =>
    by_cases h0 : numOr0 (g a) = 0
    · have hstep : divideStep c (g a) = .error "Division by zero in Divide node" := by
        simp [divideStep, h0]
      exact Or.inl (by simp only [List.foldlM_cons, hstep, err_bind])
    · have hstep : divideStep c (g a) = .ok (c / numOr0 (g a)) := by
        simp [divideStep, h0]
      simp only [List.foldlM_cons, hstep, ok_bind]
      exact ih _

theorem foldlM_pushNum_err {α : Type} (l : List α) (inner : α → Except String Rat) (E : String)
    (hE : ∀ a ∈ l, inner a = .error E ∨ ∃ q, inner a = .ok q)
    (hex : ∃ a ∈ l, inner a = .error E) (acc : List JSVal) :
    (l.foldlM (fun acc a => (inner a) >>= fun q => Except.ok (acc ++ [JSVal.num q])) acc) =
      .error E := by
  induction l generalizing acc with
  | nil => obtain ⟨a, ha, -⟩ := hex; simp at ha
  | cons a t ih =>
    rcases hE a (by simp) with ha | ⟨q, ha⟩
    · simp only [List.foldlM_cons, ha, err_bind]
    · simp only [List.foldlM_cons, ha, ok_bind]
      have ht : ∀ x ∈ t, inner x = .error E ∨ ∃ q, inner x = .ok q :=
        fun x hx => hE x (by simp [hx])
      obtain ⟨x, hx, hxe⟩ := hex
      rcases List.mem_cons.mp hx with hx | hx
      · rw [hx, ha] at hxe; exact absurd hxe (by simp)
      · exact ih ht ⟨x, hx, hxe⟩ _

/-! ### Flattening lemmas -/

/-- The key multiset of the flattened record. -/
def flatKeys (nv : List (String × VMap)) : List String :=
  nv.flatMap (fun p => p.2.map (fun q => p.1 ++ "." ++ q.1))

/-- The flattened pairs in plain append order. -/
def flatPairs (nv : List (String × VMap)) : List (String × JSVal) :=
  nv.flatMap (fun p => p.2.map (fun q => (p.1 ++ "." ++ q.1, q.2)))

theorem mset_of_not_mem (m : VMap) (k : String) (v : JSVal)
    (h : k ∉ m.map Prod.fst) : mset m k v = m ++ [(k, v)] := by
  induction m with
  | nil => rfl
  | cons p rest ih =>
    simp only [List.map_cons, List.mem_cons] at h
    push_neg at h
    show (if p.1 = k then (k, v) :: rest else p :: mset rest k v) = (p :: rest) ++ [(k, v)]
    rw [if_neg (fun hc => h.1 hc.symm), ih h.2]
    rfl

theorem mget_of_mem_nodup {l : List (String × JSVal)} {k : String} {v : JSVal}
    (hmem : (k, v) ∈ l) (hnd : (l.map Prod.fst).Nodup) : mget l k = v := by
  induction l with
  | nil => simp at hmem
  | cons p rest ih =>
    simp only [List.map_cons, List.nodup_cons] at hnd
    rcases List.mem_cons.mp hmem with hmem | hmem
    · cases hmem; simp [mget]
    · have hk : p.1 ≠ k := by
        intro hcontra
        exact hnd.1 (hcontra ▸ (List.mem_map_of_mem Prod.fst hmem))
      have hfind : (p :: rest).find? (fun q => q.1 = k) = rest.find? (fun q => q.1 = k) :=
        List.find?_cons_of_neg _ (by simp [hk])
      simp only [mget, hfind]
      exact ih hmem hnd.2

theorem inner_flatten_go (prefix' : String) (m : VMap) :
    ∀ acc : List (String × JSVal),
    (∀ k ∈ m.map Prod.fst, (prefix' ++ "." ++ k) ∉ acc.map Prod.fst) →
    ((m.map (fun q => prefix' ++ "." ++ q.1)).Nodup) →
    m.foldl (fun acc q => mset acc (prefix' ++ "." ++ q.1) q.2) acc =
      acc ++ m.map (fun q => (prefix' ++ "." ++ q.1, q.2)) := by
  induction m with
  | nil => simp
  | cons q rest ih =>
    intro acc hdisj hnd
    simp only [List.map_cons, List.nodup_cons] at hnd
    have hnotin : (prefix' ++ "." ++ q.1) ∉ acc.map Prod.fst :=
      hdisj q.1 (by simp)
    have hdisj2 : ∀ k ∈ rest.map Prod.fst,
        (prefix' ++ "." ++ k) ∉ (acc ++ [(prefix' ++ "." ++ q.1, q.2)]).map Prod.fst := by
      intro k hk
      simp only [List.map_append, List.mem_append, List.map_cons, List.map_nil,
        List.mem_cons, List.not_mem_nil, or_false]
      push_neg
      refine ⟨hdisj k (by simp [hk]), ?_⟩
      intro hcontra
      apply hnd.1
      obtain ⟨q', hq', hqe⟩ := List.mem_map.mp hk
      have : prefix' ++ "." ++ q'.1 ∈ rest.map (fun r => prefix' ++ "." ++ r.1) :=
        List.mem_map_of_mem _ hq'
      rw [hqe] at this
      rw [← hcontra]
      exact this
    simp only [List.foldl_cons]
    rw [mset_of_not_mem _ _ _ hnotin,
      ih (acc ++ [(prefix' ++ "." ++ q.1, q.2)]) hdisj2 hnd.2]
    simp

theorem mem_flatKeys_of {nv : List (String × VMap)} {p : String × VMap} (hp : p ∈ nv)
    {k : String} (hk : k ∈ p.2.map Prod.fst) : (p.1 ++ "." ++ k) ∈ flatKeys nv := by
  simp only [flatKeys, List.mem_flatMap]
  refine ⟨p, hp, ?_⟩
  obtain ⟨q, hq, hqe⟩ := List.mem_map.mp hk
  have hm := List.mem_map_of_mem (fun r => p.1 ++ "." ++ r.1) hq
  rw [← hqe]
  exact hm

theorem flatten_go (nv : List (String × VMap)) :
    ∀ acc : List (String × JSVal),
    (flatKeys nv).Nodup →
    (∀ k ∈ flatKeys nv, k ∉ acc.map Prod.fst) →
    nv.foldl (fun acc p => p.2.foldl (fun acc q => mset acc (p.1 ++ "." ++ q.1) q.2) acc) acc =
      acc ++ flatPairs nv := by
  induction nv with
  | nil => simp [flatPairs]
  | cons p rest ih =>
    intro acc hnd hdisj
    simp only [flatKeys, List.flatMap_cons, List.nodup_append] at hnd
    obtain ⟨hnd1, hnd2, hdisj12⟩ := hnd
    have hd1 : ∀ k ∈ p.2.map Prod.fst, (p.1 ++ "." ++ k) ∉ acc.map Prod.fst := by
      intro k hk
      exact hdisj (p.1 ++ "." ++ k) (mem_flatKeys_of (List.mem_cons_self p rest) hk)
    have hd2 : ∀ k ∈ flatKeys rest,
        k ∉ (acc ++ p.2.map (fun q => (p.1 ++ "." ++ q.1, q.2))).map Prod.fst := by
      intro k hk
      simp only [List.map_append, List.mem_append]
      push_neg
      constructor
      · refine hdisj k ?_
        simp only [flatKeys, List.flatMap_cons, List.mem_append]
        exact Or.inr hk
      · intro hcontra
        simp only [List.map_map] at hcontra
        have hcontra2 : k ∈ p.2.map (fun q => p.1 ++ "." ++ q.1) := by
          simpa [Function.comp] using hcontra
        exact hdisj12 hcontra2 hk
    simp only [List.foldl_cons]
    rw [inner_flatten_go p.1 p.2 acc hd1 hnd1,
      ih (acc ++ p.2.map (fun q => (p.1 ++ "." ++ q.1, q.2))) hnd2 hd2]
    simp [flatPairs]

theorem flattenOutputs_eq_flatPairs (nv : List (String × VMap))
    (hnd : (flatKeys nv).Nodup) : flattenOutputs nv = flatPairs nv := by
  have := flatten_go nv [] hnd (by simp)
  simpa [flattenOutputs] using this

theorem flatKeys_eq_map_fst (nv : List (String × VMap)) :
    (flatPairs nv).map Prod.fst = flatKeys nv := by
  simp only [flatPairs, flatKeys, List.map_flatMap, List.map_map]
  rfl

/-! ### Execution-log lemmas (memoization guard) -/

theorem applyWrites_executed (n : GraphNode) (d : NodeDef) :
    ∀ (ws : List (String × JSVal)) (s : EvalState),
      (applyWrites n d s ws).executed = s.executed ∧
      (applyWrites n d s ws).execLog = s.execLog := by
  intro ws
  induction ws with
  | nil => intro s; exact ⟨rfl, rfl⟩
  | cons w rest ih =>
    intro s
    simpa [applyWrites, inferTypeForPort] using ih _

theorem execNodeBody_spec (reg : Registry) (s : EvalState) (target : GraphNode)
    (s' : EvalState) (h : execNodeBody reg s target = .ok s') :
    s'.executed = s.executed ∧ s'.execLog = s.execLog ++ [target.id] := by
  unfold execNodeBody at h
  cases hreg : reg target.type with
  | none => rw [hreg] at h; exact absurd h (by simp)
  | some tdef =>
    rw [hreg] at h
    simp only [] at h
    cases hex : tdef.exec
        ⟨nvGet (nvEnsure s.nodeValues target.id) target.id, target.data⟩ with
    | error msg => rw [hex] at h; exact absurd h (by simp)
    | ok writes =>
      rw [hex] at h
      simp only [Except.ok.injEq] at h
      subst h
      have hres := applyWrites_executed target tdef writes
        ⟨nvEnsure s.nodeValues target.id, s.inferredTypes, s.executed, s.execLog ++ [target.id]⟩
      simpa using hres

theorem count_append_ne (l : List String) (x id : String) (hne : x ≠ id) :
    (l ++ [x]).count id = l.count id := by
  have h0 : ([x] : List String).count id = 0 := by
    rw [List.count_eq_zero]
    intro hc
    have hid : id = x := by simpa using hc
    exact hne hid.symm
  rw [List.count_append, h0]
  exact Nat.add_zero _

theorem inferTypeForPort_executed (s : EvalState) (nodeId port : String) (value : JSVal)
    (dt : Option String) : (inferTypeForPort s nodeId port value dt).executed = s.executed := rfl

theorem inferTypeForPort_execLog (s : EvalState) (nodeId port : String) (value : JSVal)
    (dt : Option String) : (inferTypeForPort s nodeId port value dt).execLog = s.execLog := rfl

theorem processEdges_guard (g : Graph) (reg : Registry) (n : GraphNode) :
    ∀ (edges : List GraphEdge) (stack : List Frame) (s : EvalState) (s' : EvalState)
      (t : Option Task),
      processEdges g reg n edges stack s = .ok (s', t) →
      s'.executed = s.executed ∧
      (∀ id ∈ s.executed, s'.execLog.count id = s.execLog.count id) := by
  intro edges
  induction edges with
  | nil =>
    intro stack s s' t h
    simp only [processEdges, Except.ok.injEq, Prod.mk.injEq] at h
    obtain ⟨h1, -⟩ := h
    subst h1
    exact ⟨rfl, fun _ _ => rfl⟩
  | cons e rest ih =>
    intro stack s s' t h
    simp only [processEdges] at h
    split at h
    · exact absurd h (by simp)
    · split at h
      · exact ih _ _ _ _ h
      · rename_i tnode hfind
        split at h
        · exact absurd h (by simp)
        · split at h
          · simp only [Except.ok.injEq, Prod.mk.injEq] at h
            obtain ⟨h1, -⟩ := h
            subst h1
            exact ⟨rfl, fun _ _ => rfl⟩
          · rename_i hnotexec
            split at h
            · exact absurd h (by simp)
            · rename_i s3 hbody
              simp only [Except.ok.injEq, Prod.mk.injEq] at h
              obtain ⟨h1, -⟩ := h
              subst h1
              have hspec := execNodeBody_spec reg _ _ s3 hbody
              have hnot2 : tnode.id ∉ s.executed := hnotexec
              have hlog : s3.execLog = s.execLog ++ [tnode.id] := hspec.2
              have hexe : s3.executed = s.executed := hspec.1
              refine ⟨hexe, ?_⟩
              intro id hid
              rw [hlog]
              have hne : tnode.id ≠ id := fun hc => hnot2 (hc ▸ hid)
              rw [count_append_ne _ _ _ hne]

theorem mem_sAdd_of_mem {l : List String} {id : String} (x : String) (h : id ∈ l) :
    id ∈ sAdd l x := by
  unfold sAdd
  split
  · exact h
  · exact List.mem_append_left _ h

theorem runTurn_guard (g : Graph) (reg : Registry) (fr : Frame) (frs : List Frame)
    (s s' : EvalState) (t : Option Task) (h : runTurn g reg fr frs s = .ok (s', t)) :
    (∀ id ∈ s.executed, id ∈ s'.executed) ∧
    (∀ id ∈ s.executed, s'.execLog.count id = s.execLog.count id) := by
  cases fr with
  | execPost n =>
    have hpe := processEdges_guard g reg n (outgoingEdges g n.id) frs
      { s with executed := sAdd s.executed n.id } s' t h
    constructor
    · intro id hid
      rw [hpe.1]
      exact mem_sAdd_of_mem n.id hid
    · intro id hid
      exact hpe.2 id (mem_sAdd_of_mem n.id hid)
  | propagate n rest =>
    have hpe := processEdges_guard g reg n rest frs s s' t h
    exact ⟨fun id hid => hpe.1 ▸ hid, hpe.2⟩

/-! ### Claim C2 -/

/-- C2: whenever Divide executes with a divisor input that numerically
coerces to zero — any `in1, in2, ...` in the scalar case, any aligned
element of a divisor array in the broadcast case — the contract throws
the division-by-zero error before any quotient at that position is
computed, and `evaluate()` converts the thrown error into a failure result
with empty outputs; concretely the graph Divide(in0=10, in1=0) fails with
that error (no Infinity is ever produced: the guard precedes the
division). -/
theorem divide_by_zero_aborts :
    (∀ inputs : List JSVal, hasArray inputs = false → inputs ≠ [] →
      (∃ v ∈ inputs.drop 1, numOr0 v = 0) →
      divideCore inputs = .error "Division by zero in Divide node") ∧
    (∀ inputs : List JSVal, hasArray inputs = true →
      (∃ i, i < maxLength (toArrays inputs) ∧
        ∃ arr ∈ (toArrays inputs).drop 1, numOr0 (alignedGet arr i) = 0) →
      divideCore inputs = .error "Division by zero in Divide node") ∧
    (∀ e : ExecInput, divideCore (collectInputs e) = .error "Division by zero in Divide node" →
      divideExecute e = .error "Division by zero in Divide node") ∧
    (∀ (g : Graph) (reg : Registry) (fuel : Nat) (err : String),
      runGraph g reg fuel = some (.error err) →
      evaluateFuel g reg fuel = some ⟨false, [], none, some err⟩) ∧
    evaluateFuel egDivGraph stdRegistry 30 =
      some ⟨false, [], none, some "Division by zero in Divide node"⟩ := by
  refine ⟨?_, ?_, ?_, ?_, rfl⟩
  · rintro inputs hno hne ⟨v, hv, h0⟩
    have hlen : ¬ inputs.length = 0 := by simpa [List.length_eq_zero] using hne
    have herr := foldlM_divideStep_err (inputs.drop 1) (fun v => v)
      (numOr0 (inputs.headD .undefined)) ⟨v, hv, h0⟩
    simp only [divideCore, hlen, if_false, hno, Bool.false_eq_true]
    rw [show (inputs.drop 1).foldlM divideStep (numOr0 (inputs.headD .undefined)) =
      Except.error "Division by zero in Divide node" from herr, map_err]
  · rintro inputs hyes ⟨i, hi, arr, harr, h0⟩
    have hlen : ¬ inputs.length = 0 := by
      simpa [List.length_eq_zero] using hasArray_ne_nil hyes
    have hE : ∀ j ∈ List.range (maxLength (toArrays inputs)),
        (((toArrays inputs).drop 1).foldlM
          (fun quotient arr => divideStep quotient (alignedGet arr j))
          (numOr0 (alignedGet ((toArrays inputs).headD []) j))) =
            .error "Division by zero in Divide node" ∨
        ∃ q, (((toArrays inputs).drop 1).foldlM
          (fun quotient arr => divideStep quotient (alignedGet arr j))
          (numOr0 (alignedGet ((toArrays inputs).headD []) j))) = .ok q := by
      intro j _
      exact foldlM_divideStep_err_or_ok _ _ _
    have hex : ∃ j ∈ List.range (maxLength (toArrays inputs)),
        (((toArrays inputs).drop 1).foldlM
          (fun quotient arr => divideStep quotient (alignedGet arr j))
          (numOr0 (alignedGet ((toArrays inputs).headD []) j))) =
            .error "Division by zero in Divide node" :=
      ⟨i, List.mem_range.mpr hi, foldlM_divideStep_err _ _ _ ⟨arr, harr, h0⟩⟩
    have herr := foldlM_pushNum_err (List.range (maxLength (toArrays inputs)))
      (fun j => ((toArrays inputs).drop 1).foldlM
        (fun quotient arr => divideStep quotient (alignedGet arr j))
        (numOr0 (alignedGet ((toArrays inputs).headD []) j)))
      "Division by zero in Divide node" hE hex []
    have h2 : (List.foldlM (fun acc j => do
          let q ← List.foldlM (fun quotient arr => divideStep quotient (alignedGet arr j))
              (numOr0 (alignedGet ((toArrays inputs).headD []) j)) (List.drop 1 (toArrays inputs))
          return acc ++ [JSVal.num q]) [] (List.range (maxLength (toArrays inputs)))) =
        Except.error "Division by zero in Divide node" := herr
    simp only [divideCore, hlen, if_false, hyes, if_true]
    rw [h2, map_err]
  · intro e h
    unfold divideExecute
    rw [h, map_err]
  · intro g reg fuel err h
    simp only [evaluateFuel, h]

/-- Witness for C2: the scalar divide-by-zero input and the concrete
two-Value-one-Divide run. -/
theorem divide_by_zero_aborts_witness :
    (hasArray [JSVal.num 10, JSVal.num 0] = false ∧
     numOr0 (JSVal.num 0) = 0 ∧
     divideCore [JSVal.num 10, JSVal.num 0] = .error "Division by zero in Divide node") ∧
    (runGraph egDivGraph stdRegistry 30 = some (.error "Division by zero in Divide node") ∧
     evaluateFuel egDivGraph stdRegistry 30 =
       some ⟨false, [], none, some "Division by zero in Divide node"⟩) :=
  ⟨⟨rfl, rfl, divide_by_zero_aborts.1 [JSVal.num 10, JSVal.num 0] rfl (by simp)
      ⟨JSVal.num 0, by simp, rfl⟩⟩,
   ⟨rfl, divide_by_zero_aborts.2.2.2.1 egDivGraph stdRegistry 30 _ rfl⟩⟩

/-! ### Claim C10 -/

/-- C10: the outputs record of a successful evaluate() is built by
flattening every node's entire per-node value map, which stores staged
inputs under `input.{port}` keys alongside outputs — so outputs contains
`{target}.input.{port}` mapped to the staged value for every staged input
(stated for records whose flattened keys do not collide, which holds for
every run whose node ids are dot-free); concretely the Value→Add graph's
successful outputs map `add.input.in0` to the staged 10. -/
theorem outputs_include_staged_inputs :
    (∀ (nv : List (String × VMap)) (id : String) (m : VMap) (port : String) (v : JSVal),
      (flatKeys nv).Nodup → (id, m) ∈ nv → ("input." ++ port, v) ∈ m →
      mget (flattenOutputs nv) (id ++ "." ++ ("input." ++ port)) = v) ∧
    (∀ (g : Graph) (reg : Registry) (fuel : Nat) (s : EvalState),
      runGraph g reg fuel = some (.ok s) →
      evaluateFuel g reg fuel =
        some ⟨true, flattenOutputs s.nodeValues, some s.inferredTypes, none⟩) ∧
    ((evaluateFuel egFlowGraph stdRegistry 30).map (fun r => r.success) = some true ∧
     (evaluateFuel egFlowGraph stdRegistry 30).map (fun r => mget r.outputs "add.input.in0") =
       some (.num 10) ∧
     (evaluateFuel egFlowGraph stdRegistry 30).map (fun r => mget r.outputs "v.out") =
       some (.num 10)) := by
  refine ⟨?_, ?_, rfl, rfl, rfl⟩
  · intro nv id m port v hnd hm hpair
    rw [flattenOutputs_eq_flatPairs nv hnd]
    have hmem : (id ++ "." ++ ("input." ++ port), v) ∈ flatPairs nv := by
      simp only [flatPairs, List.mem_flatMap]
      exact ⟨(id, m), hm, List.mem_map_of_mem _ hpair⟩
    have hnd' : ((flatPairs nv).map Prod.fst).Nodup := by
      rw [flatKeys_eq_map_fst]
      exact hnd
    exact mget_of_mem_nodup hmem hnd'
  · intro g reg fuel s h
    simp only [evaluateFuel, h]

/-- Witness for C10: a one-node record holding one staged input. -/
theorem outputs_include_staged_inputs_witness :
    (flatKeys [("a", [("input.in0", JSVal.num 3)])]).Nodup ∧
    mget (flattenOutputs [("a", [("input.in0", JSVal.num 3)])]) ("a" ++ "." ++ ("input." ++ "in0")) =
      JSVal.num 3 :=
  ⟨by decide, outputs_include_staged_inputs.1 [("a", [("input.in0", JSVal.num 3)])]
    "a" [("input.in0", JSVal.num 3)] "in0" (JSVal.num 3) (by decide) (by simp) (by simp)⟩

/-! ### Claim C4 -/

/-- C4 counterexample: in the two-start fan-in graph `egTwoStart` the Add
node `x` executes twice.  The first branch stages `in0` and starts `x`;
while `x` is suspended at the `await` before its executed-mark, the second
branch stages `in1`, finds `x` not yet in the executed set, and runs its
execute again. -/
theorem node_executes_twice_counterexample :
    runLog egTwoStart stdRegistry 30 = some ["a", "b", "x", "x"] ∧
    (["a", "b", "x", "x"] : List String).count "x" = 2 :=
  ⟨rfl, by decide⟩

/-- C4 (amended): the memoization guard is only half of the claimed
invariant.  What does hold: a node whose id is in the executed set when the
dispatch loop runs is skipped on every re-entry — its execute is never
invoked again, so its invocation count in the log never changes.  What
fails (see the counterexample): a node can execute twice when an
independent branch re-enters it between its execute and its executed-mark,
because the mark is placed only after the execute's await resolves. -/
theorem executed_nodes_never_rerun :
    ∀ (g : Graph) (reg : Registry) (fuel : Nat) (queue : List Task)
      (s s' : EvalState), runQueue g reg fuel queue s = some (.ok s') →
      ∀ id ∈ s.executed, s'.execLog.count id = s.execLog.count id := by
  intro g reg fuel
  induction fuel with
  | zero => intro queue s s' h; exact absurd h (by simp [runQueue])
  | succ fuel ih =>
    intro queue s s' h
    match queue with
    | [] =>
      simp only [runQueue, Option.some.injEq, Except.ok.injEq] at h
      subst h
      exact fun _ _ => rfl
    | [] :: rest =>
      exact ih rest s s' h
    | (fr :: frs) :: rest =>
      rw [runQueue] at h
      cases hturn : runTurn g reg fr frs s with
      | error e => rw [hturn] at h; exact absurd h (by simp)
      | ok pair =>
        obtain ⟨s1, topt⟩ := pair
        rw [hturn] at h
        have hg := runTurn_guard g reg fr frs s s1 topt hturn
        cases topt with
        | none =>
          intro id hid
          rw [ih rest s1 s' h id (hg.1 id hid)]
          exact hg.2 id hid
        | some tk =>
          intro id hid
          rw [ih (rest ++ [tk]) s1 s' h id (hg.1 id hid)]
          exact hg.2 id hid

/-- Witness for C4's amended theorem: a one-turn run from a state with `a`
already executed leaves its (zero) invocation count unchanged. -/
theorem executed_nodes_never_rerun_witness :
    runQueue egTwoStart stdRegistry 1 [] ⟨[], [], ["a"], []⟩ =
      some (.ok ⟨[], [], ["a"], []⟩) ∧
    "a" ∈ (⟨[], [], ["a"], []⟩ : EvalState).executed ∧
    (EvalState.execLog ⟨[], [], ["a"], []⟩).count "a" =
      (EvalState.execLog ⟨[], [], ["a"], []⟩).count "a" :=
  ⟨rfl, by simp,
   executed_nodes_never_rerun egTwoStart stdRegistry 1 [] ⟨[], [], ["a"], []⟩
     ⟨[], [], ["a"], []⟩ rfl "a" (by simp)⟩

/-! ### Validation: cycle detection (detectCycles) -/

/-- The adjacency map of `detectCycles`/`findReachableNodes`: built by
pushing each edge's target onto its source's entry; a missing key reads as
the empty list (the `|| []`). -/
def adjacency (g : Graph) : String → List String :=
  g.edges.foldl (fun adj e =>
    fun x => if x = e.from'.node then adj x ++ [e.to'.node] else adj x) (fun _ => [])

/-- The directed edge relation of a graph, as the spec speaks of it. -/
def edgeRel (g : Graph) (a b : String) : Prop :=
  ∃ e ∈ g.edges, e.from'.node = a ∧ e.to'.node = b

/-- The DFS bookkeeping shared across calls: the visited set and the
recursion stack. -/
structure DfsState where
  visited : List String
  stack : List String

/-- The reported cycle: `path.slice(path.indexOf(neighbor))` with the
neighbor appended, joined by arrows. -/
def cycleDesc (path : List String) (neighbor : String) : String :=
  String.intercalate " -> " ((path.drop (path.findIdx (fun x => x = neighbor))) ++ [neighbor])

/-- The two activation kinds of the recursive DFS helper: a call
`dfs(nodeId, path)` and the neighbor loop inside it, resumed at the
remaining neighbors. -/
inductive DfsCall where
  | node (nodeId : String) (path : List String)
  | nbrs (neighbors : List String) (path : List String)

/-- The DFS of detectCycles with its two activation kinds made explicit
(so the recursion is structural in the fuel).  `.node`: mark visited, push
on the recursion stack and the path, scan the neighbors.  `.nbrs`: an
unvisited neighbor recurses; a visited neighbor still on the recursion
stack reports the cycle as the ordered path from its first occurrence; a
finished neighbor is skipped; when the loop ends the node is popped.  The
fuel bounds the number of nested steps; the bound `detectCycles` passes is
shown adequate below, as every `.node` step consumes a fresh unvisited
node and every `.nbrs` step one neighbor entry. -/
def dfsGo (g : Graph) : Nat → DfsCall → DfsState → Option (DfsState × Option String)
  | 0, _, _ => none
  | fuel + 1, .node nodeId path, s =>
    let s1 : DfsState := ⟨s.visited ++ [nodeId], nodeId :: s.stack⟩
    match dfsGo g fuel (.nbrs (adjacency g nodeId) (path ++ [nodeId])) s1 with
    | none => none
    | some (s2, some cyc) => some (s2, some cyc)
    | some (s2, none) => some (⟨s2.visited, s2.stack.erase nodeId⟩, none)
  | _ + 1, .nbrs [] _, s => some (s, none)
  | fuel + 1, .nbrs (neighbor :: rest) path, s =>
    if neighbor ∈ s.visited then
      if neighbor ∈ s.stack then some (s, some (cycleDesc path neighbor))
      else dfsGo g fuel (.nbrs rest path) s
    else
      match dfsGo g fuel (.node neighbor path) s with
      | none => none
      | some (s2, some cyc) => some (s2, some cyc)
      | some (s2, none) => dfsGo g fuel (.nbrs rest path) s2

/-- The outer loop of detectCycles: DFS from every not-yet-visited node in
list order, returning the first reported cycle. -/
def detectCyclesLoop (g : Graph) (fuel : Nat) :
    List GraphNode → DfsState → Option (DfsState × Option String)
  | [], s => some (s, none)
  | n :: rest, s =>
    if n.id ∈ s.visited then detectCyclesLoop g fuel rest s
    else
      match dfsGo g fuel (.node n.id []) s with
      | none => none
      | some (s2, some cyc) => some (s2, some cyc)
      | some (s2, none) => detectCyclesLoop g fuel rest s2

/-- Every id a dfs call can be entered on: the graph's node ids and the
edge targets. -/
def dfsUniverse (g : Graph) : List String :=
  g.nodes.map GraphNode.id ++ g.edges.map (fun e => e.to'.node)

/-- The fuel detectCycles passes to the DFS; adequate by
`dfsGo_fuel_adequate`. -/
def dfsFuel (g : Graph) : Nat :=
  (g.nodes.length + g.edges.length + 1) * (g.edges.length + 2) + 1

/-- `detectCycles`: hasCycle flag and cycle description.  The fuel bound
is adequate, so the `none` fallback is unreachable. -/
def detectCycles (g : Graph) : Bool × String :=
  match detectCyclesLoop g (dfsFuel g) g.nodes ⟨[], []⟩ with
  | some (_, some cyc) => (true, cyc)
  | some (_, none) => (false, "")
  | none => (false, "")

/-! ### Validation: reachability and the validate pipeline -/

/-- The BFS of `findReachableNodes`.  Fuel-bounded; exhaustion can only
shrink the computed reachable set, which only affects the (non-fatal)
unreachable-node warnings. -/
def bfs (g : Graph) : Nat → List String → List String → List String
  | 0, _, reachable => reachable
  | _ + 1, [], reachable => reachable
  | fuel + 1, current :: queue, reachable =>
    if current ∈ reachable then bfs g fuel queue reachable
    else bfs g fuel (queue ++ adjacency g current) (reachable ++ [current])

/-- `findReachableNodes`: BFS from the start nodes. -/
def findReachableNodes (g : Graph) : List String :=
  bfs g ((g.nodes.length + 1) * (g.edges.length + 1) + g.nodes.length + 1)
    ((findStartNodes g).map GraphNode.id) []

/-- Lookup in the inferred-types record. -/
def itGet (l : List (String × InferredTypeInfo)) (k : String) : Option InferredTypeInfo :=
  (l.find? (fun p => p.1 = k)).map (fun p => p.2)

/-- `ValidationResult` (types.ts). -/
structure ValidationResult where
  success : Bool
  errors : List String
  warnings : List String
  inferredTypes : List (String × InferredTypeInfo)

/-- Step 5 of validate: seed inferred types for Value nodes carrying a
`data.value`, against the declared first output port (if any). -/
def inferValueNodes (g : Graph) (reg : Registry) : List (String × InferredTypeInfo) :=
  g.nodes.foldl (fun acc node =>
    match reg node.type with
    | none => acc
    | some definition =>
      if node.type = "Value" ∧ ¬ node.data.value.isUndef then
        let outputPort := definition.outputs.bind (fun outs => outs.head?)
        itSet acc (node.id ++ ".out")
          ⟨getValueType node.data.value, outputPort.map (fun p => p.type),
            match outputPort with
            | some p => isTypeCompatible node.data.value p.type
            | none => true⟩
      else acc) []

/-- Step 6 of validate: per-edge type checking, accumulating errors and
recording the inferred type of each target input port. -/
def checkEdgeTypes (g : Graph) (reg : Registry)
    (inferred0 : List (String × InferredTypeInfo)) :
    List String × List (String × InferredTypeInfo) :=
  g.edges.foldl (fun acc e =>
    match g.nodes.find? (fun n => n.id = e.from'.node),
        g.nodes.find? (fun n => n.id = e.to'.node) with
    | some sourceNode, some targetNode =>
      match reg sourceNode.type, reg targetNode.type with
      | some sourceDefinition, some targetDefinition =>
        let sourcePort := sourceDefinition.outputs.bind
          (fun outs => outs.find? (fun p => p.name = e.from'.port))
        let targetPort := targetDefinition.inputs.bind
          (fun ins => ins.find? (fun p => p.name = e.to'.port))
        let sourceKey := e.from'.node ++ "." ++ e.from'.port
        let sourceType := match itGet acc.2 sourceKey with
          | some info => info.inferredType
          | none => match sourcePort with
            | some p => p.type
            | none => "any"
        let targetType := match targetPort with
          | some p => p.type
          | none => "any"
        let errs := if areTypesCompatible sourceType targetType then acc.1
          else acc.1 ++ ["Type mismatch: cannot connect \x27" ++ sourceNode.type ++ "." ++
            e.from'.port ++ "\x27 (" ++ sourceType ++ ") to \x27" ++ targetNode.type ++ "." ++
            e.to'.port ++ "\x27 (expected " ++ targetType ++ ")"]
        (errs, itSet acc.2 (e.to'.node ++ ".input." ++ e.to'.port)
          ⟨sourceType, some targetType, areTypesCompatible sourceType targetType⟩)
      | _, _ => acc
    | _, _ => acc) ([], inferred0)

/-- `validate()`: static analysis with accumulated errors.  Steps: empty
graph; unknown node types; dangling edge endpoints (early return if any of
these); cycle detection; Value-node type inference; per-edge type checks;
reachability warnings. -/
def validate (g : Graph) (reg : Registry) : ValidationResult :=
  if g.nodes.length = 0 then ⟨false, ["Graph has no nodes"], [], []⟩
  else
    let errors2 := g.nodes.filterMap (fun node =>
      match reg node.type with
      | none => some ("Node \x27" ++ node.id ++ "\x27 has unknown type \x27" ++
          node.type ++ "\x27")
      | some _ => none)
    let ids := g.nodes.map GraphNode.id
    let errors3 := g.edges.flatMap (fun e =>
      (if e.from'.node ∈ ids then []
       else ["Edge references non-existent source node \x27" ++ e.from'.node ++ "\x27"]) ++
      (if e.to'.node ∈ ids then []
       else ["Edge references non-existent target node \x27" ++ e.to'.node ++ "\x27"]))
    let basicErrors := errors2 ++ errors3
    if basicErrors.isEmpty = false then ⟨false, basicErrors, [], []⟩
    else
      let cycleCheck := detectCycles g
      let errors4 := if cycleCheck.1 then ["Graph contains cycles: " ++ cycleCheck.2] else []
      let inferred5 := inferValueNodes g reg
      let step6 := checkEdgeTypes g reg inferred5
      let reachable := findReachableNodes g
      let warnings := g.nodes.filterMap (fun n =>
        if n.id ∈ reachable then none
        else some ("Node \x27" ++ n.id ++ "\x27 (" ++ n.type ++ ") is not reachable from any input"))
      let errors := errors4 ++ step6.1
      ⟨errors.isEmpty, errors, warnings, step6.2⟩

/-- A two-node graph with the edge cycle a -> b -> a. -/
def egCycleGraph : Graph :=
  .mk [.mk "a" "Value" NodeData.empty, .mk "b" "Value" NodeData.empty]
    [⟨⟨"a", "out"⟩, ⟨"b", "in0"⟩⟩, ⟨⟨"b", "out"⟩, ⟨"a", "in0"⟩⟩]

/-! ### Cycle-detection proofs: adjacency characterization -/

theorem adjacency_aux (edges : List GraphEdge) (f : String → List String) (u : String) :
    (edges.foldl (fun adj e =>
      fun x => if x = e.from'.node then adj x ++ [e.to'.node] else adj x) f) u =
    f u ++ (edges.filter (fun e => e.from'.node = u)).map (fun e => e.to'.node) := by
  induction edges generalizing f with
  | nil => simp
  | cons e rest ih =>
    simp only [List.foldl_cons]
    rw [ih]
    by_cases h : e.from'.node = u
    · simp [h, List.filter_cons, List.append_assoc]
    · have h2 : ¬ (u = e.from'.node) := fun hc => h hc.symm
      simp [h, h2, List.filter_cons]

theorem adjacency_spec (g : Graph) (u : String) :
    adjacency g u = (g.edges.filter (fun e => e.from'.node = u)).map (fun e => e.to'.node) := by
  unfold adjacency
  rw [adjacency_aux]
  simp

theorem edgeRel_iff_adjacency (g : Graph) (u v : String) :
    edgeRel g u v ↔ v ∈ adjacency g u := by
  rw [adjacency_spec]
  constructor
  · rintro ⟨e, he, h1, h2⟩
    exact h2 ▸ List.mem_map_of_mem _ (List.mem_filter.mpr ⟨he, by simp [h1]⟩)
  · intro hv
    obtain ⟨e, he, hev⟩ := List.mem_map.mp hv
    have hf := List.mem_filter.mp he
    exact ⟨e, hf.1, by simpa using hf.2, hev⟩

theorem adjacency_sub_universe (g : Graph) (u : String) :
    ∀ v ∈ adjacency g u, v ∈ dfsUniverse g := by
  rw [adjacency_spec]
  intro v hv
  obtain ⟨e, he, hev⟩ := List.mem_map.mp hv
  exact List.mem_append_right _ (hev ▸ List.mem_map_of_mem _ (List.mem_filter.mp he).1)

theorem adjacency_length_le (g : Graph) (u : String) :
    (adjacency g u).length ≤ g.edges.length := by
  rw [adjacency_spec, List.length_map]
  exact List.length_filter_le _ _

/-! ### Cycle-detection proofs: monotonicity and fuel adequacy -/

theorem dfsGo_visited_mono (g : Graph) :
    ∀ (fuel : Nat) (call : DfsCall) (s s' : DfsState) (r : Option String),
      dfsGo g fuel call s = some (s', r) → ∀ x ∈ s.visited, x ∈ s'.visited := by
  intro fuel
  induction fuel with
  | zero => intro call s s' r h; exact absurd h (by simp [dfsGo])
  | succ fuel ih =>
    intro call s s' r h
    match call with
    | .node u path =>
      simp only [dfsGo] at h
      cases hin : dfsGo g fuel (.nbrs (adjacency g u) (path ++ [u]))
          ⟨s.visited ++ [u], u :: s.stack⟩ with
      | none => rw [hin] at h; exact absurd h (by simp)
      | some pr =>
        obtain ⟨s2, r2⟩ := pr
        rw [hin] at h
        have hmono := ih _ _ _ _ hin
        cases r2 with
        | some cyc =>
          simp only [Option.some.injEq, Prod.mk.injEq] at h
          obtain ⟨h1, -⟩ := h
          subst h1
          exact fun x hx => hmono x (List.mem_append_left _ hx)
        | none =>
          simp only [Option.some.injEq, Prod.mk.injEq] at h
          obtain ⟨h1, -⟩ := h
          subst h1
          exact fun x hx => hmono x (List.mem_append_left _ hx)
    | .nbrs [] path =>
      simp only [dfsGo, Option.some.injEq, Prod.mk.injEq] at h
      obtain ⟨h1, -⟩ := h
      subst h1
      exact fun x hx => hx
    | .nbrs (n :: rest) path =>
      simp only [dfsGo] at h
      by_cases hv : n ∈ s.visited
      · rw [if_pos hv] at h
        by_cases hs : n ∈ s.stack
        · rw [if_pos hs] at h
          simp only [Option.some.injEq, Prod.mk.injEq] at h
          obtain ⟨h1, -⟩ := h
          subst h1
          exact fun x hx => hx
        · rw [if_neg hs] at h
          exact ih _ _ _ _ h
      · rw [if_neg hv] at h
        cases hin : dfsGo g fuel (.node n path) s with
        | none => rw [hin] at h; exact absurd h (by simp)
        | some pr =>
          obtain ⟨s2, r2⟩ := pr
          rw [hin] at h
          have hmono := ih _ _ _ _ hin
          cases r2 with
          | some cyc =>
            simp only [Option.some.injEq, Prod.mk.injEq] at h
            obtain ⟨h1, -⟩ := h
            subst h1
            exact hmono
          | none =>
            have hmono2 := ih _ _ _ _ h
            exact fun x hx => hmono2 x (hmono x hx)

theorem dfsGo_node_visits (g : Graph) :
    ∀ (fuel : Nat) (u : String) (path : List String) (s s' : DfsState) (r : Option String),
      dfsGo g fuel (.node u path) s = some (s', r) → u ∈ s'.visited := by
  intro fuel u path s s' r h
  cases fuel with
  | zero => exact absurd h (by simp [dfsGo])
  | succ fuel =>
    simp only [dfsGo] at h
    cases hin : dfsGo g fuel (.nbrs (adjacency g u) (path ++ [u]))
        ⟨s.visited ++ [u], u :: s.stack⟩ with
    | none => rw [hin] at h; exact absurd h (by simp)
    | some pr =>
      obtain ⟨s2, r2⟩ := pr
      rw [hin] at h
      have hu : u ∈ s2.visited :=
        dfsGo_visited_mono g fuel _ _ _ _ hin u (List.mem_append_right _ (by simp))
      cases r2 with
      | some cyc =>
        simp only [Option.some.injEq, Prod.mk.injEq] at h
        obtain ⟨h1, -⟩ := h
        subst h1
        exact hu
      | none =>
        simp only [Option.some.injEq, Prod.mk.injEq] at h
        obtain ⟨h1, -⟩ := h
        subst h1
        exact hu

/-- Nodes of the universe not yet visited. -/
def remaining (g : Graph) (s : DfsState) : Nat :=
  ((dfsUniverse g).toFinset \ s.visited.toFinset).card

theorem remaining_mono (g : Graph) {s s' : DfsState}
    (h : ∀ x ∈ s.visited, x ∈ s'.visited) : remaining g s' ≤ remaining g s := by
  apply Finset.card_le_card
  apply Finset.sdiff_subset_sdiff (Finset.Subset.refl _)
  intro x hx
  simp only [List.mem_toFinset] at *
  exact h x hx

theorem remaining_succ_le (g : Graph) (s : DfsState) (u : String) (st : List String)
    (hU : u ∈ dfsUniverse g) (hv : u ∉ s.visited) :
    remaining g ⟨s.visited ++ [u], st⟩ + 1 ≤ remaining g s := by
  show ((dfsUniverse g).toFinset \ (s.visited ++ [u]).toFinset).card + 1 ≤
    ((dfsUniverse g).toFinset \ s.visited.toFinset).card
  have hmem : u ∈ (dfsUniverse g).toFinset \ s.visited.toFinset := by
    simp [List.mem_toFinset, hU, hv]
  have hsub : (dfsUniverse g).toFinset \ ((s.visited ++ [u]).toFinset) ⊆
      ((dfsUniverse g).toFinset \ s.visited.toFinset).erase u := by
    intro x hx
    simp only [Finset.mem_sdiff, List.mem_toFinset, List.mem_append,
      List.mem_singleton] at hx
    push_neg at hx
    simp only [Finset.mem_erase, Finset.mem_sdiff, List.mem_toFinset]
    exact ⟨hx.2.2, hx.1, hx.2.1⟩
  have h1 := Finset.card_le_card hsub
  have h2 := Finset.card_erase_add_one hmem
  omega

theorem dfs_bound_arith1 (r r1 E k fuel : Nat) (hr : r1 + 1 ≤ r) (hk : k ≤ E + 1)
    (hfuel : r * (E + 2) ≤ fuel) : r1 * (E + 2) + k + 1 ≤ fuel := by
  have h1 : r1 * (E + 2) + (E + 2) ≤ r * (E + 2) := by
    calc r1 * (E + 2) + (E + 2) = (r1 + 1) * (E + 2) := by ring
    _ ≤ r * (E + 2) := Nat.mul_le_mul_right _ hr
  omega

theorem dfs_bound_arith2 (r r2 E len fuel : Nat) (hr : r2 + 1 ≤ r)
    (hfuel : r * (E + 2) + len + 1 ≤ fuel) : r2 * (E + 2) + len + 1 ≤ fuel := by
  have h1 : r2 * (E + 2) + (E + 2) ≤ r * (E + 2) := by
    calc r2 * (E + 2) + (E + 2) = (r2 + 1) * (E + 2) := by ring
    _ ≤ r * (E + 2) := Nat.mul_le_mul_right _ hr
  omega

/-- The fuel requirement of a DFS activation. -/
def dfsBound (g : Graph) (s : DfsState) : DfsCall → Nat
  | .node _ _ => remaining g s * (g.edges.length + 2) + 1
  | .nbrs l _ => remaining g s * (g.edges.length + 2) + l.length + 1

theorem dfsGo_fuel_adequate (g : Graph) : ∀ (fuel : Nat) (call : DfsCall) (s : DfsState),
    (match call with
     | .node u _ => u ∈ dfsUniverse g ∧ u ∉ s.visited
     | .nbrs l _ => ∀ b ∈ l, b ∈ dfsUniverse g) →
    dfsBound g s call ≤ fuel →
    dfsGo g fuel call s ≠ none := by
  intro fuel
  induction fuel with
  | zero =>
    intro call s hok hb
    exfalso
    cases call with
    | node u path => simp [dfsBound] at hb
    | nbrs l path => simp [dfsBound] at hb
  | succ fuel ih =>
    intro call s hok hb
    match call with
    | .node u path =>
      obtain ⟨hU, hv⟩ := hok
      have hR := remaining_succ_le g s u (u :: s.stack) hU hv
      have hbound : dfsBound g ⟨s.visited ++ [u], u :: s.stack⟩
          (.nbrs (adjacency g u) (path ++ [u])) ≤ fuel := by
        simp only [dfsBound] at hb ⊢
        exact dfs_bound_arith1 (remaining g s) (remaining g ⟨s.visited ++ [u], u :: s.stack⟩)
          g.edges.length (adjacency g u).length fuel hR
          (Nat.le_succ_of_le (adjacency_length_le g u)) (by omega)
      have hadq := ih (.nbrs (adjacency g u) (path ++ [u]))
        ⟨s.visited ++ [u], u :: s.stack⟩ (fun b hb2 => adjacency_sub_universe g u b hb2) hbound
      intro hnone
      simp only [dfsGo] at hnone
      cases hin : dfsGo g fuel (.nbrs (adjacency g u) (path ++ [u]))
          ⟨s.visited ++ [u], u :: s.stack⟩ with
      | none => exact hadq hin
      | some pr =>
        obtain ⟨s2, r2⟩ := pr
        rw [hin] at hnone
        cases r2 with
        | some cyc => exact absurd hnone (by simp)
        | none => exact absurd hnone (by simp)
    | .nbrs [] path => simp [dfsGo]
    | .nbrs (n :: rest) path =>
      intro hnone
      simp only [dfsGo] at hnone
      by_cases hv : n ∈ s.visited
      · rw [if_pos hv] at hnone
        by_cases hs : n ∈ s.stack
        · rw [if_pos hs] at hnone
          exact absurd hnone (by simp)
        · rw [if_neg hs] at hnone
          have hbound : dfsBound g s (.nbrs rest path) ≤ fuel := by
            simp only [dfsBound, List.length_cons] at hb ⊢
            omega
          exact ih (.nbrs rest path) s (fun b hb2 => hok b (List.mem_cons_of_mem _ hb2))
            hbound hnone
      · rw [if_neg hv] at hnone
        have hbound1 : dfsBound g s (.node n path) ≤ fuel := by
          simp only [dfsBound, List.length_cons] at hb ⊢
          omega
        have hadq := ih (.node n path) s ⟨hok n (by simp), hv⟩ hbound1
        cases hin : dfsGo g fuel (.node n path) s with
        | none => exact hadq hin
        | some pr =>
          obtain ⟨s2, r2⟩ := pr
          rw [hin] at hnone
          cases r2 with
          | some cyc => exact absurd hnone (by simp)
          | none =>
            have hu2 : n ∈ s2.visited := dfsGo_node_visits g fuel n path s s2 none hin
            have hmono := dfsGo_visited_mono g fuel _ _ _ _ hin
            have hR2 : remaining g s2 + 1 ≤ remaining g s := by
              have h1 : remaining g s2 ≤ remaining g ⟨s.visited ++ [n], s.stack⟩ := by
                apply remaining_mono
                intro x hx
                rcases List.mem_append.mp hx with hx | hx
                · exact hmono x hx
                · simpa [List.mem_singleton.mp hx] using hu2
              have h2 := remaining_succ_le g s n s.stack (hok n (by simp)) hv
              omega
            have hbound2 : dfsBound g s2 (.nbrs rest path) ≤ fuel := by
              simp only [dfsBound, List.length_cons] at hb ⊢
              exact dfs_bound_arith2 (remaining g s) (remaining g s2) g.edges.length
                rest.length fuel hR2 (by omega)
            exact ih (.nbrs rest path) s2 (fun b hb2 => hok b (List.mem_cons_of_mem _ hb2))
              hbound2 hnone

theorem remaining_le_universe (g : Graph) (s : DfsState) :
    remaining g s ≤ g.nodes.length + g.edges.length := by
  unfold remaining
  calc ((dfsUniverse g).toFinset \ s.visited.toFinset).card
      ≤ (dfsUniverse g).toFinset.card := Finset.card_le_card (Finset.sdiff_subset)
    _ ≤ (dfsUniverse g).length := List.toFinset_card_le _
    _ = g.nodes.length + g.edges.length := by simp [dfsUniverse]

theorem detectCyclesLoop_fuel (g : Graph) :
    ∀ (nodes : List GraphNode) (s : DfsState),
      (∀ n ∈ nodes, n.id ∈ dfsUniverse g) →
      detectCyclesLoop g (dfsFuel g) nodes s ≠ none := by
  intro nodes
  induction nodes with
  | nil => intro s _; simp [detectCyclesLoop]
  | cons n rest ih =>
    intro s hok
    intro hnone
    simp only [detectCyclesLoop] at hnone
    by_cases hv : n.id ∈ s.visited
    · rw [if_pos hv] at hnone
      exact ih s (fun m hm => hok m (List.mem_cons_of_mem _ hm)) hnone
    · rw [if_neg hv] at hnone
      have hbound : dfsBound g s (.node n.id []) ≤ dfsFuel g := by
        simp only [dfsBound, dfsFuel]
        have h1 := remaining_le_universe g s
        have h2 : remaining g s * (g.edges.length + 2) ≤
            (g.nodes.length + g.edges.length) * (g.edges.length + 2) :=
          Nat.mul_le_mul_right _ h1
        have h3 : (g.nodes.length + g.edges.length) * (g.edges.length + 2) ≤
            (g.nodes.length + g.edges.length + 1) * (g.edges.length + 2) :=
          Nat.mul_le_mul_right _ (by omega)
        omega
      have hadq := dfsGo_fuel_adequate g (dfsFuel g) (.node n.id []) s
        ⟨hok n (by simp), hv⟩ hbound
      cases hin : dfsGo g (dfsFuel g) (.node n.id []) s with
      | none => exact hadq hin
      | some pr =>
        obtain ⟨s2, r2⟩ := pr
        rw [hin] at hnone
        cases r2 with
        | some cyc => exact absurd hnone (by simp)
        | none => exact ih s2 (fun m hm => hok m (List.mem_cons_of_mem _ hm)) hnone

/-! ### Cycle-detection proofs: the DFS invariant and completeness -/

/-- The DFS invariant: the recursion stack is visited; a finished node
(visited and off the stack) has finished successors; no finished node lies
on a directed cycle. -/
def DfsInv (g : Graph) (s : DfsState) : Prop :=
  (∀ x ∈ s.stack, x ∈ s.visited) ∧
  (∀ a, a ∈ s.visited → a ∉ s.stack → ∀ b, edgeRel g a b →
    b ∈ s.visited ∧ b ∉ s.stack) ∧
  (∀ a, a ∈ s.visited → a ∉ s.stack → ¬ Relation.TransGen (edgeRel g) a a)

theorem done_reach (g : Graph) (s : DfsState)
    (hC : ∀ a, a ∈ s.visited → a ∉ s.stack → ∀ b, edgeRel g a b →
      b ∈ s.visited ∧ b ∉ s.stack) :
    ∀ a b, a ∈ s.visited → a ∉ s.stack → Relation.ReflTransGen (edgeRel g) a b →
      b ∈ s.visited ∧ b ∉ s.stack := by
  intro a b ha hs hr
  induction hr with
  | refl => exact ⟨ha, hs⟩
  | tail h1 h2 ih => exact hC _ ih.1 ih.2 _ h2

theorem dfsGo_spec (g : Graph) : ∀ fuel : Nat,
    (∀ (u : String) (path : List String) (s s2 : DfsState),
      dfsGo g fuel (.node u path) s = some (s2, none) → u ∉ s.visited → DfsInv g s →
      (∀ x ∈ s.visited, x ∈ s2.visited) ∧ s2.stack = s.stack ∧ DfsInv g s2 ∧
        u ∈ s2.visited ∧ u ∉ s2.stack) ∧
    (∀ (l path : List String) (s s2 : DfsState),
      dfsGo g fuel (.nbrs l path) s = some (s2, none) → DfsInv g s →
      (∀ x ∈ s.visited, x ∈ s2.visited) ∧ s2.stack = s.stack ∧ DfsInv g s2 ∧
        (∀ b ∈ l, b ∈ s2.visited ∧ b ∉ s2.stack)) := by
  intro fuel
  induction fuel with
  | zero =>
    constructor
    · intro u path s s2 h
      exact absurd h (by simp [dfsGo])
    · intro l path s s2 h
      exact absurd h (by simp [dfsGo])
  | succ fuel ih =>
    obtain ⟨ihN, ihL⟩ := ih
    constructor
    · -- the .node activation
      intro u path s s2 h hv hInv
      obtain ⟨hSV, hC, hA⟩ := hInv
      have hustk : u ∉ s.stack := fun hu => hv (hSV u hu)
      simp only [dfsGo] at h
      cases hin : dfsGo g fuel (.nbrs (adjacency g u) (path ++ [u]))
          ⟨s.visited ++ [u], u :: s.stack⟩ with
      | none => rw [hin] at h; exact absurd h (by simp)
      | some pr =>
        obtain ⟨s1, r1⟩ := pr
        rw [hin] at h
        cases r1 with
        | some cyc => exact absurd h (by simp)
        | none =>
          simp only [Option.some.injEq, Prod.mk.injEq] at h
          obtain ⟨h1, -⟩ := h
          -- the invariant holds after pushing u
          have hInv1 : DfsInv g ⟨s.visited ++ [u], u :: s.stack⟩ := by
            refine ⟨?_, ?_, ?_⟩
            · intro x hx
              rcases List.mem_cons.mp hx with hx | hx
              · exact hx ▸ List.mem_append_right _ (by simp)
              · exact List.mem_append_left _ (hSV x hx)
            · intro a hav has b hab
              have ha2 : a ∈ s.visited := by
                rcases List.mem_append.mp hav with hx | hx
                · exact hx
                · exact absurd (List.mem_cons_self _ _)
                    (by rw [← List.mem_singleton.mp hx] at has; exact fun hh => has hh)
              have has2 : a ∉ s.stack := fun hh => has (List.mem_cons_of_mem _ hh)
              obtain ⟨hb1, hb2⟩ := hC a ha2 has2 b hab
              refine ⟨List.mem_append_left _ hb1, ?_⟩
              intro hb3
              rcases List.mem_cons.mp hb3 with hb3 | hb3
              · exact hv (hb3 ▸ hb1)
              · exact hb2 hb3
            · intro a hav has
              have ha2 : a ∈ s.visited := by
                rcases List.mem_append.mp hav with hx | hx
                · exact hx
                · exact absurd (List.mem_cons_self _ _)
                    (by rw [← List.mem_singleton.mp hx] at has; exact fun hh => has hh)
              exact hA a ha2 (fun hh => has (List.mem_cons_of_mem _ hh))
          obtain ⟨hm1, hstk1, hInv2, hnb⟩ :=
            ihL (adjacency g u) (path ++ [u]) _ s1 hin hInv1
          obtain ⟨hSV2, hC2, hA2⟩ := hInv2
          have hustk1 : u ∈ s1.stack := by rw [hstk1]; exact List.mem_cons_self _ _
          have huvis : u ∈ s1.visited := hm1 u (List.mem_append_right _ (by simp))
          have hmono : ∀ x ∈ s.visited, x ∈ s1.visited :=
            fun x hx => hm1 x (List.mem_append_left _ hx)
          -- a node other than u that is done in the popped state was done in s1
          have hdone1 : ∀ a, a ≠ u → a ∈ s1.visited → a ∉ s.stack → a ∉ s1.stack := by
            intro a hne hav has
            rw [hstk1]
            intro hmem
            rcases List.mem_cons.mp hmem with hmem | hmem
            · exact hne hmem
            · exact has hmem
          have hfromstk1 : ∀ b, b ∉ s1.stack → b ∉ s.stack := by
            intro b hb hmem
            exact hb (by rw [hstk1]; exact List.mem_cons_of_mem _ hmem)
          subst h1
          refine ⟨hmono, ?_, ⟨?_, ?_, ?_⟩, huvis, ?_⟩
          · show s1.stack.erase u = s.stack
            rw [hstk1]
            exact List.erase_cons_head u s.stack
          · -- stack ⊆ visited after the pop
            intro x hx
            have hx2 : x ∈ s1.stack := List.mem_of_mem_erase hx
            exact hSV2 x hx2
          · -- closedness after the pop
            intro a hav has b hab
            have has0 : a ∉ s.stack := by
              intro hmem
              exact has (by
                rw [hstk1, List.erase_cons_head]
                exact hmem)
            by_cases hau : a = u
            · subst hau
              have hb2 := hnb b ((edgeRel_iff_adjacency g a b).mp hab)
              refine ⟨hb2.1, ?_⟩
              rw [hstk1, List.erase_cons_head]
              exact fun hmem => hb2.2 (by rw [hstk1]; exact List.mem_cons_of_mem _ hmem)
            · have has1 : a ∉ s1.stack := hdone1 a hau hav has0
              obtain ⟨hb1, hb2⟩ := hC2 a hav has1 b hab
              refine ⟨hb1, ?_⟩
              rw [hstk1, List.erase_cons_head]
              exact fun hmem => hb2 (by rw [hstk1]; exact List.mem_cons_of_mem _ hmem)
          · -- acyclicity after the pop
            intro a hav has
            have has0 : a ∉ s.stack := by
              intro hmem
              exact has (by
                rw [hstk1, List.erase_cons_head]
                exact hmem)
            by_cases hau : a = u
            · subst hau
              intro htg
              obtain ⟨v, hav2, hvu⟩ := Relation.TransGen.head'_iff.mp htg
              have hvdone := hnb v ((edgeRel_iff_adjacency g a v).mp hav2)
              have hreach := done_reach g s1 hC2 v a hvdone.1 hvdone.2 hvu
              exact hreach.2 hustk1
            · exact hA2 a hav (hdone1 a hau hav has0)
          · -- u is off the stack after the pop
            rw [hstk1, List.erase_cons_head]
            exact hustk
    · -- the .nbrs activation
      intro l path s s2 h hInv
      match l with
      | [] =>
        simp only [dfsGo, Option.some.injEq, Prod.mk.injEq] at h
        obtain ⟨h1, -⟩ := h
        subst h1
        exact ⟨fun x hx => hx, rfl, hInv, by simp⟩
      | n :: rest =>
        simp only [dfsGo] at h
        by_cases hv : n ∈ s.visited
        · rw [if_pos hv] at h
          by_cases hs : n ∈ s.stack
          · rw [if_pos hs] at h
            exact absurd h (by simp)
          · rw [if_neg hs] at h
            obtain ⟨hmono, hstk, hInv2, hrest⟩ := ihL rest path s s2 h hInv
            refine ⟨hmono, hstk, hInv2, ?_⟩
            intro b hb
            rcases List.mem_cons.mp hb with hb | hb
            · subst hb
              exact ⟨hmono b hv, fun hmem => hs (hstk ▸ hmem)⟩
            · exact hrest b hb
        · rw [if_neg hv] at h
          cases hin : dfsGo g fuel (.node n path) s with
          | none => rw [hin] at h; exact absurd h (by simp)
          | some pr =>
            obtain ⟨s1, r1⟩ := pr
            rw [hin] at h
            cases r1 with
            | some cyc => exact absurd h (by simp)
            | none =>
              obtain ⟨hm1, hstk1, hInv1, hn1, hn2⟩ := ihN n path s s1 hin hv hInv
              obtain ⟨hm2, hstk2, hInv2, hrest⟩ := ihL rest path s1 s2 h hInv1
              refine ⟨fun x hx => hm2 x (hm1 x hx), hstk2.trans hstk1, hInv2, ?_⟩
              intro b hb
              rcases List.mem_cons.mp hb with hb | hb
              · subst hb
                exact ⟨hm2 b hn1, fun hmem => hn2 (hstk2 ▸ hmem)⟩
              · exact hrest b hb

theorem detectCyclesLoop_spec (g : Graph) (fuel : Nat) :
    ∀ (nodes : List GraphNode) (s s2 : DfsState),
      detectCyclesLoop g fuel nodes s = some (s2, none) → DfsInv g s →
      DfsInv g s2 ∧ s2.stack = s.stack ∧ (∀ x ∈ s.visited, x ∈ s2.visited) ∧
      (∀ n ∈ nodes, n.id ∈ s2.visited) := by
  intro nodes
  induction nodes with
  | nil =>
    intro s s2 h hInv
    simp only [detectCyclesLoop, Option.some.injEq, Prod.mk.injEq] at h
    obtain ⟨h1, -⟩ := h
    subst h1
    exact ⟨hInv, rfl, fun x hx => hx, by simp⟩
  | cons n rest ih =>
    intro s s2 h hInv
    simp only [detectCyclesLoop] at h
    by_cases hv : n.id ∈ s.visited
    · rw [if_pos hv] at h
      obtain ⟨hInv2, hstk, hmono, hall⟩ := ih s s2 h hInv
      refine ⟨hInv2, hstk, hmono, ?_⟩
      intro m hm
      rcases List.mem_cons.mp hm with hm | hm
      · exact hm ▸ hmono _ hv
      · exact hall m hm
    · rw [if_neg hv] at h
      cases hin : dfsGo g fuel (.node n.id []) s with
      | none => rw [hin] at h; exact absurd h (by simp)
      | some pr =>
        obtain ⟨s1, r1⟩ := pr
        rw [hin] at h
        cases r1 with
        | some cyc => exact absurd h (by simp)
        | none =>
          obtain ⟨hm1, hs1, hI1, hu1, -⟩ := (dfsGo_spec g fuel).1 n.id [] s s1 hin hv hInv
          obtain ⟨hInv2, hstk, hmono, hall⟩ := ih s1 s2 h hI1
          refine ⟨hInv2, hstk.trans hs1, fun x hx => hmono x (hm1 x hx), ?_⟩
          intro m hm
          rcases List.mem_cons.mp hm with hm | hm
          · exact hm ▸ hmono _ hu1
          · exact hall m hm

theorem detectCycles_complete (g : Graph)
    (hend : ∀ e ∈ g.edges, e.from'.node ∈ g.nodes.map GraphNode.id)
    (hcyc : ∃ a, Relation.TransGen (edgeRel g) a a) :
    (detectCycles g).1 = true := by
  obtain ⟨a, ha⟩ := hcyc
  obtain ⟨v, hav, -⟩ := Relation.TransGen.head'_iff.mp ha
  obtain ⟨e, he, he1, -⟩ := hav
  have haid : a ∈ g.nodes.map GraphNode.id := he1 ▸ hend e he
  unfold detectCycles
  cases hloop : detectCyclesLoop g (dfsFuel g) g.nodes ⟨[], []⟩ with
  | none =>
    exact absurd hloop (detectCyclesLoop_fuel g g.nodes ⟨[], []⟩
      (fun n hn => List.mem_append_left _ (List.mem_map_of_mem _ hn)))
  | some pr =>
    obtain ⟨s2, r2⟩ := pr
    cases r2 with
    | some cyc => simp
    | none =>
      exfalso
      have hInv0 : DfsInv g ⟨[], []⟩ := ⟨by simp, by simp, by simp⟩
      obtain ⟨hInv2, hstk, -, hall⟩ :=
        detectCyclesLoop_spec g (dfsFuel g) g.nodes ⟨[], []⟩ s2 hloop hInv0
      obtain ⟨n, hn, hnid⟩ := List.mem_map.mp haid
      have hav2 : a ∈ s2.visited := hnid ▸ hall n hn
      have hastk : a ∉ s2.stack := by rw [hstk]; exact List.not_mem_nil a
      exact hInv2.2.2 a hav2 hastk ha

/-! ### The validate pipeline under the C3 hypotheses -/

theorem filterMap_nil_of {α β : Type} (l : List α) (f : α → Option β)
    (h : ∀ a ∈ l, f a = none) : l.filterMap f = [] := by
  induction l with
  | nil => rfl
  | cons x xs ih =>
    rw [List.filterMap_cons, h x (by simp)]
    exact ih (fun a ha => h a (List.mem_cons_of_mem _ ha))

theorem flatMap_nil_of {α β : Type} (l : List α) (f : α → List β)
    (h : ∀ a ∈ l, f a = []) : l.flatMap f = [] := by
  induction l with
  | nil => rfl
  | cons x xs ih =>
    show f x ++ xs.flatMap f = []
    rw [h x (by simp), ih (fun a ha => h a (List.mem_cons_of_mem _ ha))]
    rfl

theorem validate_cycle_shape (g : Graph) (reg : Registry)
    (h0 : ¬ (g.nodes.length = 0))
    (h2 : g.nodes.filterMap (fun node =>
      match reg node.type with
      | none => some ("Node \x27" ++ node.id ++ "\x27 has unknown type \x27" ++
          node.type ++ "\x27")
      | some _ => none) = [])
    (h3 : g.edges.flatMap (fun e =>
      (if e.from'.node ∈ g.nodes.map GraphNode.id then []
       else ["Edge references non-existent source node \x27" ++ e.from'.node ++ "\x27"]) ++
      (if e.to'.node ∈ g.nodes.map GraphNode.id then []
       else ["Edge references non-existent target node \x27" ++ e.to'.node ++ "\x27"])) = [])
    (hdc : (detectCycles g).1 = true) :
    (validate g reg).success = false ∧
    ("Graph contains cycles: " ++ (detectCycles g).2) ∈ (validate g reg).errors := by
  have hval : validate g reg =
      ⟨(("Graph contains cycles: " ++ (detectCycles g).2) ::
         (checkEdgeTypes g reg (inferValueNodes g reg)).1).isEmpty,
       ("Graph contains cycles: " ++ (detectCycles g).2) ::
         (checkEdgeTypes g reg (inferValueNodes g reg)).1,
       g.nodes.filterMap (fun n =>
        if n.id ∈ findReachableNodes g then none
        else some ("Node \x27" ++ n.id ++ "\x27 (" ++ n.type ++ ") is not reachable from any input")),
       (checkEdgeTypes g reg (inferValueNodes g reg)).2⟩ := by
    simp only [validate]
    rw [if_neg h0, h2, h3]
    rw [if_neg (by simp)]
    rw [hdc, if_pos rfl]
    rfl
  constructor
  · rw [hval]
    simp
  · rw [hval]
    exact List.mem_cons_self _ _

/-! ### Claim C3 -/

/-- C3: for every graph whose nodes all resolve in the registry and whose
edges all reference existing node ids, if the edge relation contains a
directed cycle then `validate` returns `success = false` and its errors
include a cycle error `"Graph contains cycles: <path>"` whose path is the
one reported by the depth-first search with a recursion stack. -/
theorem validate_reports_cycles (g : Graph) (reg : Registry)
    (hreg : ∀ n ∈ g.nodes, (reg n.type).isSome = true)
    (hends : ∀ e ∈ g.edges, e.from'.node ∈ g.nodes.map GraphNode.id ∧
      e.to'.node ∈ g.nodes.map GraphNode.id)
    (hcyc : ∃ a, Relation.TransGen (edgeRel g) a a) :
    (validate g reg).success = false ∧
    ∃ d, ("Graph contains cycles: " ++ d) ∈ (validate g reg).errors := by
  obtain ⟨a, ha⟩ := hcyc
  obtain ⟨v, hav, -⟩ := Relation.TransGen.head'_iff.mp ha
  obtain ⟨e, he, he1, -⟩ := hav
  have haid : a ∈ g.nodes.map GraphNode.id := he1 ▸ (hends e he).1
  have h0 : ¬ (g.nodes.length = 0) := by
    intro hlen
    rw [List.length_eq_zero.mp hlen] at haid
    simp at haid
  have hdc : (detectCycles g).1 = true :=
    detectCycles_complete g (fun e2 he2 => (hends e2 he2).1) ⟨a, ha⟩
  have h2 := filterMap_nil_of g.nodes (fun node =>
      match reg node.type with
      | none => some ("Node \x27" ++ node.id ++ "\x27 has unknown type \x27" ++
          node.type ++ "\x27")
      | some _ => none) (by
    intro node hn
    obtain ⟨d, hd⟩ := Option.isSome_iff_exists.mp (hreg node hn)
    simp only [hd])
  have h3 := flatMap_nil_of g.edges (fun e2 =>
      (if e2.from'.node ∈ g.nodes.map GraphNode.id then []
       else ["Edge references non-existent source node \x27" ++ e2.from'.node ++ "\x27"]) ++
      (if e2.to'.node ∈ g.nodes.map GraphNode.id then []
       else ["Edge references non-existent target node \x27" ++ e2.to'.node ++ "\x27"])) (by
    intro e2 he2
    obtain ⟨hf, ht⟩ := hends e2 he2
    simp only [if_pos hf, if_pos ht, List.append_nil])
  obtain ⟨hs, hm⟩ := validate_cycle_shape g reg h0 h2 h3 hdc
  exact ⟨hs, (detectCycles g).2, hm⟩

/-- Witness for C3: the two-node graph with edges a -> b and b -> a. -/
theorem validate_reports_cycles_witness :
    (validate egCycleGraph stdRegistry).success = false ∧
    ∃ d, ("Graph contains cycles: " ++ d) ∈ (validate egCycleGraph stdRegistry).errors :=
  validate_reports_cycles egCycleGraph stdRegistry (by decide) (by decide)
    ⟨"a", Relation.TransGen.head
      ⟨⟨⟨"a", "out"⟩, ⟨"b", "in0"⟩⟩, List.mem_cons_self _ _, rfl, rfl⟩
      (Relation.TransGen.single
        ⟨⟨⟨"b", "out"⟩, ⟨"a", "in0"⟩⟩, List.mem_cons_of_mem _ (List.mem_cons_self _ _),
          rfl, rfl⟩)⟩

/-- Witness for C8 at concrete inputs. -/
theorem isTypeCompatible_spec_witness :
    isTypeCompatible (.num 3) "any" = true ∧
    (isTypeCompatible (.num 3) "number | string" = true ↔
      ∃ m ∈ (jsSplitOn "number | string" " | ").map (fun p => jsTrim p),
        getValueType (.num 3) = m ∨ m = "any") ∧
    (isTypeCompatible (.bool true) "number" = true ↔
      getValueType (.bool true) = "number") := by
  refine ⟨isTypeCompatible_spec.1 _, ?_, ?_⟩
  · exact isTypeCompatible_spec.2.1 (.num 3) "number | string" (by decide)
  · exact isTypeCompatible_spec.2.2.1 (.bool true) "number" (by decide) (by decide)

end ExprEval
